import Mathlib

/-!
Verification of the log-following core of `where-am-i` (`src/log.rs`,
`src/main.rs`).

The Rust code is embedded shallowly:

* Strings (`&str`, `OsStr` file names) are modelled as lists of bytes
  (`List Nat`), since every operation the code performs on them
  (`len`, byte indexing, `split_at`, `strip_prefix`/`strip_suffix` with
  ASCII literals, `split_once`, `split`, `is_ascii`, `is_char_boundary`)
  is byte-level.  `OsStr::to_str` failure is not modelled separately: a
  non-UTF-8 name necessarily contains a non-ASCII byte, which already
  makes every grammar below reject it.
* `chrono::NaiveDateTime` is modelled by `DateTime`; chrono orders these
  values by (date, time), which on valid calendar values coincides with
  the lexicographic order on (year, month, day, hour, minute, second).
* Machine integers parsed with Rust's `FromStr` (`i32`, `u32`) are
  modelled by `parseI32` / `parseU32`, including the optional leading
  sign and the range check performed by Rust's implementation.
* The asynchronous pieces (`log_files`, `LogReader::poll_read`,
  `Switch::poll_next`, the `read_until` framing loop of
  `file_log_events`) are modelled as pure transition functions over
  scripted inputs: the sequence of directory-notification messages, the
  sequence of results of polling the underlying file / timer / streams.
-/

namespace WhereAmI

/-- Bytes of an ASCII string literal (used only on ASCII literals, where
UTF-8 bytes and code points coincide). -/
def ascii (s : String) : List Nat := s.data.map Char.toNat

/-! ## Calendar timestamps (`chrono::NaiveDateTime`) -/

/-- A calendar timestamp as built by `NaiveDateTime::new` from
`NaiveDate::from_ymd_opt` and `NaiveTime::from_hms_opt`. -/
structure DateTime where
  year : Int
  month : Nat
  day : Nat
  hour : Nat
  minute : Nat
  second : Nat
deriving DecidableEq, Repr

/-- The comparison key of a timestamp: chrono compares `NaiveDateTime`
by date then time, which on valid values is the lexicographic order on
the six fields. -/
def DateTime.key (d : DateTime) :
    Lex (Int × Lex (Nat × Lex (Nat × Lex (Nat × Lex (Nat × Nat))))) :=
  toLex (d.year, toLex (d.month, toLex (d.day, toLex (d.hour, toLex (d.minute, d.second)))))

/-- Model of `a < b` on `NaiveDateTime`. -/
def DateTime.ltb (a b : DateTime) : Bool := decide (a.key < b.key)

/-- Proleptic-Gregorian leap year, as used by chrono. -/
def isLeapYear (y : Int) : Bool := y % 4 = 0 ∧ (y % 100 ≠ 0 ∨ y % 400 = 0)

def daysInMonth (y : Int) (m : Nat) : Nat :=
  if m = 2 then (if isLeapYear y then 29 else 28)
  else if m = 4 ∨ m = 6 ∨ m = 9 ∨ m = 11 then 30
  else 31

/-- Model of `NaiveDate::from_ymd_opt` succeeding: month and day in
calendar range, year within chrono's supported range. -/
def dateValid (y : Int) (m d : Nat) : Bool :=
  -262144 ≤ y ∧ y ≤ 262143 ∧ 1 ≤ m ∧ m ≤ 12 ∧ 1 ≤ d ∧ d ≤ daysInMonth y m

/-- Model of `NaiveTime::from_hms_opt` succeeding. -/
def timeValid (h mi s : Nat) : Bool := h < 24 ∧ mi < 60 ∧ s < 60

/-! ## Rust integer parsing (`str::parse::<u32>` / `::<i32>`)

Rust's `FromStr` for integers accepts an optional leading `+` or `-`
followed by one or more ASCII decimal digits, and fails on overflow of
the target type (for an unsigned type a `-` sign is accepted only when
the digits denote zero). -/

def isDigitB (c : Nat) : Bool := 48 ≤ c ∧ c ≤ 57

/-- Numeric value of a string of ASCII decimal digit bytes. -/
def decValue (s : List Nat) : Nat := s.foldl (fun acc c => acc * 10 + (c - 48)) 0

/-- Model of `str::parse::<u32>` on a byte string: a digit string after
an optional sign is accumulated with overflow checking; a `-` sign only
succeeds when the accumulated value is zero. -/
def parseU32 (s : List Nat) : Option Nat :=
  match s with
  | [] => none
  | c :: rest =>
    if c = 43 ∨ c = 45 then
      if rest = [] ∨ ¬ rest.all isDigitB then none
      else if c = 45 then (if decValue rest = 0 then some 0 else none)
      else if decValue rest < 2 ^ 32 then some (decValue rest) else none
    else
      if ¬ (c :: rest).all isDigitB then none
      else if decValue (c :: rest) < 2 ^ 32 then some (decValue (c :: rest)) else none

/-- Model of `str::parse::<i32>` on a byte string. -/
def parseI32 (s : List Nat) : Option Int :=
  match s with
  | [] => none
  | c :: rest =>
    if c = 43 ∨ c = 45 then
      if rest = [] ∨ ¬ rest.all isDigitB then none
      else if c = 45 then
        (if decValue rest ≤ 2 ^ 31 then some (-(decValue rest : Int)) else none)
      else if decValue rest < 2 ^ 31 then some ((decValue rest : Int)) else none
    else
      if ¬ (c :: rest).all isDigitB then none
      else if decValue (c :: rest) < 2 ^ 31 then some ((decValue (c :: rest) : Int)) else none

/-! ## `parse_log_file_name` (src/log.rs:52-78) -/

/-- Model of `str::strip_prefix` with a literal pattern. -/
def stripPrefixB (p s : List Nat) : Option (List Nat) :=
  if s.take p.length = p then some (s.drop p.length) else none

/-- Model of `str::strip_suffix` with a literal pattern. -/
def stripSuffixB (p s : List Nat) : Option (List Nat) :=
  if p.length ≤ s.length ∧ s.drop (s.length - p.length) = p then
    some (s.take (s.length - p.length))
  else none

/-- Rust `parse_log_file_name`: strip `output_log_` and `.txt`, require a
19-byte ASCII body with `-`/`_` separators at fixed offsets, parse the
six numeric fields and validate them as a calendar date and time. -/
def parseLogFileName (name : List Nat) : Option DateTime :=
  match stripPrefixB (ascii "output_log_") name with
  | none => none
  | some t1 =>
    match stripSuffixB (ascii ".txt") t1 with
    | none => none
    | some ts =>
      if ts.length ≠ 19 ∨ ¬ ts.all (· < 128) then none
      else if ts.getD 4 0 ≠ 45 ∨ ts.getD 7 0 ≠ 45 ∨ ts.getD 10 0 ≠ 95 ∨
          ts.getD 13 0 ≠ 45 ∨ ts.getD 16 0 ≠ 45 then none
      else
        match parseI32 (ts.take 4), parseU32 ((ts.drop 5).take 2),
            parseU32 ((ts.drop 8).take 2), parseU32 ((ts.drop 11).take 2),
            parseU32 ((ts.drop 14).take 2), parseU32 ((ts.drop 17).take 2) with
        | some y, some mo, some d, some h, some mi, some s =>
          if dateValid y mo d ∧ timeValid h mi s then some ⟨y, mo, d, h, mi, s⟩ else none
        | _, _, _, _, _, _ => none

/-! ## `log_files` (src/log.rs:86-165)

The stream is modelled by the pure function `logFilesRun`, applied to
the directory, the list of entries returned by the initial scan, and
the scripted list of results delivered to the `notify` callback. -/

/-- A log file descriptor: owned path plus the timestamp parsed from the
file name (`struct LogFile`). -/
structure LogFile where
  path : List Nat
  timestamp : DateTime
deriving DecidableEq, Repr

/-- A directory entry as seen by the initial scan: its file name, and
the result of `entry.file_type()` (`none` models a metadata error,
`some b` tells whether the entry is a regular file). -/
structure DirEntry where
  name : List Nat
  fileType : Option Bool
deriving DecidableEq, Repr

def DirEntry.isRegular (e : DirEntry) : Bool := e.fileType = some true

/-- Rust `Path::join` of the watched directory with an entry name. -/
def joinPath (dir name : List Nat) : List Nat := dir ++ 47 :: name

/-- The acceptance test used by both the scan and the notification loop:
`latest.is_none() || latest.is_some_and(|l| l < ts)`. -/
def acceptTs (cur : Option DateTime) (ts : DateTime) : Bool :=
  match cur with
  | none => true
  | some l => l.ltb ts

/-- One iteration of the initial scan loop (src/log.rs:121-144). -/
def scanStep (dir : List Nat) (latest : Option LogFile) (e : DirEntry) : Option LogFile :=
  match parseLogFileName e.name with
  | none => latest
  | some ts =>
    if ¬ e.isRegular then latest
    else if acceptTs (latest.map (·.timestamp)) ts then some ⟨joinPath dir e.name, ts⟩
    else latest

/-- The whole initial scan: fold of `scanStep` starting from `None`. -/
def scanLatest (dir : List Nat) (entries : List DirEntry) : Option LogFile :=
  entries.foldl (scanStep dir) none

/-- Rust `notify::event::CreateKind`. -/
inductive CreateKindM
  | any
  | file
  | folder
  | other
deriving DecidableEq, Repr

/-- Rust `notify::EventKind` (collapsed to the alternatives the callback
distinguishes). -/
inductive EventKindM
  | any
  | access
  | create (k : CreateKindM)
  | modify
  | remove
  | other
deriving DecidableEq, Repr

/-- A `notify::Event`: kind plus the paths it mentions. -/
structure NotifyEvent where
  kind : EventKindM
  paths : List (List Nat)
deriving DecidableEq, Repr

/-- Rust `Path::file_name`: the bytes after the last separator. -/
def fileNameOf (p : List Nat) : List Nat := (p.reverse.takeWhile (· ≠ 47)).reverse

/-- What the watcher callback forwards into the channel. -/
inductive NotifyMsg
  | err
  | log (f : LogFile)
deriving DecidableEq, Repr

/-- The watcher callback (src/log.rs:91-109): forward errors; keep only
creation-like events; take the last path of the event; keep it only if
its file name parses. -/
def processNotify (res : Except Unit NotifyEvent) : Option NotifyMsg :=
  match res with
  | .error _ => some .err
  | .ok evt =>
    let creationLike : Bool :=
      match evt.kind with
      | .any => true
      | .create .any => true
      | .create .file => true
      | _ => false
    if !creationLike then none
    else
      match evt.paths.getLast? with
      | none => none
      | some p =>
        match parseLogFileName (fileNameOf p) with
        | none => none
        | some ts => some (.log ⟨p, ts⟩)

/-- An item yielded by the `log_files` stream. -/
inductive Emission
  | file (f : LogFile)
  | error
deriving DecidableEq, Repr

/-- The notification loop (src/log.rs:154-163): a channel error is
yielded (as the stream's error) and ends the stream; a candidate is
emitted iff its timestamp passes `acceptTs`, becoming the new current
timestamp. -/
def notifLoop (cur : Option DateTime) : List NotifyMsg → List Emission
  | [] => []
  | .err :: _ => [.error]
  | .log f :: rest =>
    if acceptTs cur f.timestamp then .file f :: notifLoop (some f.timestamp) rest
    else notifLoop cur rest

/-- Everything `log_files` yields: the scan winner (if any) first, then
the notification loop seeded with the winner's timestamp
(src/log.rs:146-163). -/
def logFilesEmissions (dir : List Nat) (entries : List DirEntry) (msgs : List NotifyMsg) :
    List Emission :=
  match scanLatest dir entries with
  | some f => .file f :: notifLoop (some f.timestamp) msgs
  | none => notifLoop none msgs

/-- Rust `log_files` from the raw callback inputs. -/
def logFilesRun (dir : List Nat) (entries : List DirEntry)
    (raw : List (Except Unit NotifyEvent)) : List Emission :=
  logFilesEmissions dir entries (raw.filterMap processNotify)

/-- The timestamps of the descriptors among a list of emissions. -/
def emittedTs (es : List Emission) : List DateTime :=
  es.filterMap fun e =>
    match e with
    | .file f => some f.timestamp
    | .error => none

/-- The timestamps of the qualifying candidates seen by the initial
scan: regular files whose name matches the grammar. -/
def scanCandidates (entries : List DirEntry) : List DateTime :=
  entries.filterMap fun e =>
    match parseLogFileName e.name with
    | none => none
    | some ts => if e.isRegular then some ts else none

/-- A demonstration directory: three well-formed regular files with
timestamps T1 < T3 < T2 interleaved with a malformed name, an invalid
calendar date, a metadata error, and a non-regular entry. -/
def demoEntries : List DirEntry :=
  [⟨ascii "output_log_2024-01-01_00-00-00.txt", some true⟩,
   ⟨ascii "notalog.txt", some true⟩,
   ⟨ascii "output_log_2024-03-03_00-00-00.txt", some true⟩,
   ⟨ascii "output_log_2024-02-02_00-00-00.txt", some true⟩,
   ⟨ascii "output_log_2024-13-01_00-00-00.txt", some true⟩,
   ⟨ascii "output_log_2024-04-04_00-00-00.txt", none⟩,
   ⟨ascii "output_log_2024-05-05_00-00-00.txt", some false⟩]

/-! ## `LogReader` (src/log.rs:167-209)

`poll_read` loops: poll the file; on `Ready(Ok)` with zero new bytes,
reset the interval and poll it — `Pending` suspends the read, a tick
retries it; any other file result is returned as is.  One call of
`poll_read` is modelled over the scripted results of polling the file
(`List FileRead`) and of polling the timer after each reset
(`List Bool`, `true` = tick ready).  `none` means the script was too
short to determine the outcome. -/

/-- Result of polling the underlying `tokio::fs::File`: `bytes n` is
`Ready(Ok(()))` having added `n` bytes to the buffer. -/
inductive FileRead
  | bytes (n : Nat)
  | fail
  | pend
deriving DecidableEq, Repr

/-- What one call of `LogReader::poll_read` produces. -/
inductive PollOut
  | readyBytes (n : Nat)
  | readyErr
  | pendingRead
  | pendingTimer
deriving DecidableEq, Repr

/-- Outcome of a `poll_read` call plus the number of `interval.reset()`
calls it performed. -/
structure PollTrace where
  out : PollOut
  resets : Nat
deriving DecidableEq, Repr

/-- The interval period configured in `LogReader::new`
(`interval(Duration::from_millis(100))`). -/
def logReaderIntervalMillis : Nat := 100

/-- Rust `LogReader::new` sets `MissedTickBehavior::Delay` on the interval. -/
def logReaderDelaysMissedTicks : Bool := true

/-- One call of `LogReader::poll_read` (src/log.rs:190-208). -/
def pollRead : List FileRead → List Bool → Nat → Option PollTrace
  | [], _, _ => none
  | .bytes 0 :: fs, ticks, r =>
    match ticks with
    | [] => none
    | tick :: ticks' =>
      if tick then pollRead fs ticks' (r + 1)
      else some ⟨.pendingTimer, r + 1⟩
  | .bytes (n + 1) :: _, _, r => some ⟨.readyBytes (n + 1), r⟩
  | .fail :: _, _, r => some ⟨.readyErr, r⟩
  | .pend :: _, _, r => some ⟨.pendingRead, r⟩

/-! ## `Switch` (src/log.rs:303-349)

The combinator owns the outer stream and an optional current inner
stream.  Each poll first polls the outer stream: a new inner stream
replaces the slot (the previous one is dropped in place), an outer
error is returned at once; then the current inner stream, if any, is
polled, otherwise the poll is pending.  Streams are modelled by the
scripted list of results of successive polls; an exhausted script
behaves as pending forever. -/

/-- One result of polling an inner stream. -/
inductive InnerItem (α : Type)
  | pend
  | val (a : α)
  | err
  | done
deriving DecidableEq, Repr

/-- An inner stream: the script of its successive poll results. -/
abbrev InnerS (α : Type) := List (InnerItem α)

/-- One result of polling the outer stream. -/
inductive OuterPoll (α : Type)
  | pend
  | done
  | ok (s : InnerS α)
  | err
deriving DecidableEq, Repr

/-- One output of `Switch::poll_next`. -/
inductive SwitchOut (α : Type)
  | pending
  | value (a : α)
  | error
  | ended
deriving DecidableEq, Repr

/-- The state of `Switch`: the `current_stream` slot. -/
structure SwitchState (α : Type) where
  current : Option (InnerS α)
deriving DecidableEq, Repr

/-- Polling an inner stream script: consume its next item. -/
def pollInner {α : Type} (s : InnerS α) : InnerS α × SwitchOut α :=
  match s with
  | [] => ([], .pending)
  | .pend :: r => (r, .pending)
  | .val a :: r => (r, .value a)
  | .err :: r => (r, .error)
  | .done :: r => (r, .ended)

/-- Poll the `current_stream` slot (the tail of
`Switch::poll_next`). -/
def pollCurrent {α : Type} (st : SwitchState α) : SwitchState α × SwitchOut α :=
  match st.current with
  | none => (st, .pending)
  | some s =>
    let p := pollInner s
    (⟨some p.1⟩, p.2)

/-- One call of `Switch::poll_next` (src/log.rs:332-348), given the
outer stream's poll result for this call. -/
def switchPoll {α : Type} (o : OuterPoll α) (st : SwitchState α) :
    SwitchState α × SwitchOut α :=
  match o with
  | .err => (st, .error)
  | .ok s => pollCurrent ⟨some s⟩
  | .pend => pollCurrent st
  | .done => pollCurrent st

/-- Successive calls of `Switch::poll_next` against a script of outer
poll results. -/
def switchRun {α : Type} (st : SwitchState α) : List (OuterPoll α) → List (SwitchOut α)
  | [] => []
  | o :: os =>
    let p := switchPoll o st
    p.2 :: switchRun p.1 os

/-- The values among a list of `Switch` outputs. -/
def emittedVals {α : Type} (outs : List (SwitchOut α)) : List α :=
  outs.filterMap fun o =>
    match o with
    | .value a => some a
    | _ => none

/-- The values an inner stream script can ever produce, in order. -/
def innerVals {α : Type} (s : InnerS α) : List α :=
  s.filterMap fun i =>
    match i with
    | .val a => some a
    | _ => none

/-! ## String helpers used by `parse_line` -/

/-- Rust `str::is_char_boundary i` for `0 < i`: either `i` is the length, or
`i` is in range and the byte there is not a UTF-8 continuation byte. -/
def isCharBoundary (l : List Nat) (i : Nat) : Bool :=
  if i = l.length then true
  else if l.length < i then false
  else decide (¬ (128 ≤ l.getD i 0 ∧ l.getD i 0 < 192))

/-- Does `l` start with `pat`? -/
def startsWith (pat l : List Nat) : Bool := l.take pat.length = pat

/-- Index of the first occurrence of the byte pattern `pat` in `l`
(`str::find` for a literal pattern). -/
def findSub (pat : List Nat) : List Nat → Option Nat
  | [] => if pat = [] then some 0 else none
  | c :: rest =>
    if startsWith pat (c :: rest) then some 0
    else (findSub pat rest).map (· + 1)

/-- Rust `str::split_once` with a literal pattern. -/
def splitOnceSub (pat l : List Nat) : Option (List Nat × List Nat) :=
  match findSub pat l with
  | none => none
  | some i => some (l.take i, l.drop (i + pat.length))

/-- If the reversed byte list starts with the UTF-8 encoding (reversed)
of a Unicode `White_Space` code point, its byte length; otherwise 0.
The code points are U+0009–U+000D, U+0020, U+0085, U+00A0, U+1680,
U+2000–U+200A, U+2028, U+2029, U+202F, U+205F and U+3000. -/
def lastWsLen : List Nat → Nat
  | 9 :: _ => 1
  | 10 :: _ => 1
  | 11 :: _ => 1
  | 12 :: _ => 1
  | 13 :: _ => 1
  | 32 :: _ => 1
  | 133 :: 194 :: _ => 2
  | 160 :: 194 :: _ => 2
  | 128 :: 154 :: 225 :: _ => 3
  | 159 :: 129 :: 226 :: _ => 3
  | 128 :: 128 :: 227 :: _ => 3
  | b :: 128 :: 226 :: _ =>
    if (128 ≤ b ∧ b ≤ 138) ∨ b = 168 ∨ b = 169 ∨ b = 175 then 3 else 0
  | _ => 0

/-- Strip whitespace characters from the front of a reversed byte list,
with fuel (the list length bounds the number of characters). -/
def wsRevStrip : Nat → List Nat → List Nat
  | 0, l => l
  | fuel + 1, l =>
    let k := lastWsLen l
    if k = 0 then l else wsRevStrip fuel (l.drop k)

/-- Rust `str::trim_end`: drop trailing Unicode whitespace characters. -/
def trimEnd (l : List Nat) : List Nat := (wsRevStrip l.length l.reverse).reverse

/-! ## `WorldId`, `InstanceId`, `RoomId` (src/main.rs:147-302)

A `uuid::Uuid` is modelled by its 128-bit value as a `Nat`. -/

/-- Value of an ASCII hex digit byte, upper or lower case. -/
def hexVal (c : Nat) : Option Nat :=
  if 48 ≤ c ∧ c ≤ 57 then some (c - 48)
  else if 97 ≤ c ∧ c ≤ 102 then some (c - 87)
  else if 65 ≤ c ∧ c ≤ 70 then some (c - 55)
  else none

/-- Accumulate the value of a hex digit string. -/
def decodeHexAux : List Nat → Nat → Option Nat
  | [], acc => some acc
  | c :: r, acc => (hexVal c).bind fun v => decodeHexAux r (acc * 16 + v)

/-- Split a byte list at every occurrence of `sep`
(Rust `str::split`, which yields at least one piece). -/
def splitOnByte (sep : Nat) : List Nat → List (List Nat)
  | [] => [[]]
  | c :: cs =>
    let r := splitOnByte sep cs
    if c = sep then [] :: r else (c :: r.headD []) :: r.tail

/-- Rust `str::split_once` with a one-byte pattern. -/
def splitOnceByte (sep : Nat) : List Nat → Option (List Nat × List Nat)
  | [] => none
  | c :: rest =>
    if c = sep then some ([], rest)
    else (splitOnceByte sep rest).map fun p => (c :: p.1, p.2)

/-- Rust `str::strip_suffix` with a one-byte pattern. -/
def stripSuffixByte (sep : Nat) (l : List Nat) : Option (List Nat) :=
  if l.getLast? = some sep then some l.dropLast else none

/-- The hyphenated `uuid` format: five hyphen-separated groups of hex
digits of lengths 8-4-4-4-12. -/
def parseHyphenated (s : List Nat) : Option Nat :=
  let gs := splitOnByte 45 s
  if gs.length = 5 ∧ (gs.getD 0 []).length = 8 ∧ (gs.getD 1 []).length = 4 ∧
      (gs.getD 2 []).length = 4 ∧ (gs.getD 3 []).length = 4 ∧ (gs.getD 4 []).length = 12 then
    decodeHexAux gs.flatten 0
  else none

/-- Model of `uuid::Uuid::parse_str`/`try_parse`: dispatch on length —
32 = simple (bare hex), 36 = hyphenated, 38 = braced hyphenated,
45 = `urn:uuid:` prefixed hyphenated. -/
def parseUuid (s : List Nat) : Option Nat :=
  if s.length = 32 then decodeHexAux s 0
  else if s.length = 36 then parseHyphenated s
  else if s.length = 38 then
    if s.headD 0 = 123 then (stripSuffixByte 125 s.tail).bind parseHyphenated
    else none
  else if s.length = 45 then
    (stripPrefixB (ascii "urn:uuid:") s).bind parseHyphenated
  else none

/-- Lower-case hex digit byte of a value below 16. -/
def hexChar (n : Nat) : Nat := if n < 10 then 48 + n else 87 + n

/-- The `k` lower-case hex digit bytes of `n`, most significant
first. -/
def hexDigitsBE : Nat → Nat → List Nat
  | _, 0 => []
  | n, k + 1 => hexDigitsBE (n / 16) k ++ [hexChar (n % 16)]

/-- Rust `Uuid::as_hyphenated`: the 32 hex digits in five groups of
8-4-4-4-12, separated by hyphens. -/
def displayUuid (w : Nat) : List Nat :=
  hexDigitsBE (w / 16 ^ 24) 8 ++ (45 :: (hexDigitsBE (w / 16 ^ 20 % 16 ^ 4) 4 ++
    (45 :: (hexDigitsBE (w / 16 ^ 16 % 16 ^ 4) 4 ++ (45 :: (hexDigitsBE (w / 16 ^ 12 % 16 ^ 4) 4 ++
    (45 :: hexDigitsBE (w % 16 ^ 12) 12)))))))

/-- Rust `WorldId::from_str`: strip `wrld_`, parse the rest as a UUID. -/
def parseWorldId (s : List Nat) : Option Nat :=
  (stripPrefixB (ascii "wrld_") s).bind parseUuid

/-- Rust `WorldId`'s `Display`. -/
def displayWorldId (w : Nat) : List Nat := ascii "wrld_" ++ displayUuid w

/-- Rust `struct InstanceId` (src/main.rs:225-229). -/
structure InstanceId where
  id : Nat
  attributes : List (List Nat × List Nat)
deriving DecidableEq, Repr

/-- One `~`-separated attribute group: `key(value)`
(src/main.rs:248-252). -/
def parseAttribute (a : List Nat) : Option (List Nat × List Nat) :=
  (splitOnceByte 40 a).bind fun kr =>
    (stripSuffixByte 41 kr.2).map fun v => (kr.1, v)

/-- Rust `Iterator::collect::<Result<Vec<_>, _>>`: apply `f` to every
element, failing if any application fails. -/
def collectOption {α β : Type} (f : α → Option β) : List α → Option (List β)
  | [] => some []
  | x :: xs =>
    match f x, collectOption f xs with
    | some y, some ys => some (y :: ys)
    | _, _ => none

/-- Rust `InstanceId::from_str` (src/main.rs:241-259): split on `~`, parse
the first piece as the `u32` id and each further piece as a `key(value)`
attribute. -/
def parseInstanceId (s : List Nat) : Option InstanceId :=
  let pieces := splitOnByte 126 s
  (parseU32 (pieces.headD [])).bind fun i =>
    (collectOption parseAttribute pieces.tail).map fun attrs => ⟨i, attrs⟩

/-- Minimal decimal digit bytes, most significant first, with fuel
(the value itself bounds the number of digits). -/
def decDigitsBEFuel : Nat → Nat → List Nat
  | 0, _ => []
  | fuel + 1, n =>
    if n < 10 then [48 + n]
    else decDigitsBEFuel fuel (n / 10) ++ [48 + n % 10]

/-- Minimal decimal digit bytes of `n`, most significant first
(how Rust's `Display` writes an unsigned integer). -/
def decDigitsBE (n : Nat) : List Nat := decDigitsBEFuel (n + 1) n

/-- Rust `InstanceId`'s `Display`: the id, then `~key(value)` for each
attribute in order. -/
def displayInstanceId (inst : InstanceId) : List Nat :=
  decDigitsBE inst.id ++
    (inst.attributes.map fun p => 126 :: (p.1 ++ 40 :: (p.2 ++ [41]))).flatten

/-- Rust `struct RoomId` (src/main.rs:261-265). -/
structure RoomId where
  world : Nat
  inst : InstanceId
deriving DecidableEq, Repr

/-- Rust `RoomId::from_str` (src/main.rs:273-283): split on the first `:`
into world and instance. -/
def parseRoomId (s : List Nat) : Option RoomId :=
  (splitOnceByte 58 s).bind fun wi =>
    (parseWorldId wi.1).bind fun wv =>
      (parseInstanceId wi.2).map fun iv => ⟨wv, iv⟩

/-- Rust `RoomId`'s `Display`: `world:instance`. -/
def displayRoomId (r : RoomId) : List Nat :=
  displayWorldId r.world ++ 58 :: displayInstanceId r.inst

/-! ## `parse_line` (src/log.rs:224-271) -/

/-- Rust `struct LogEvent` / `enum LogEventKind`. -/
inductive LogEventKind
  | leftRoom
  | joiningRoom (room : RoomId)
deriving DecidableEq, Repr

structure LogEvent where
  kind : LogEventKind
deriving DecidableEq, Repr

/-- Rust `parse_line`: check the 20-byte timestamp prefix (separators at
fixed offsets, fields a valid calendar date and time), split the rest
on the first `-  `, require the trimmed source tag `Debug`, then match
the message against the two recognized forms. -/
def parseLine (line : List Nat) : Option LogEvent :=
  if line.length < 20 ∨ isCharBoundary line 20 = false then none
  else
    if ¬ (line.take 20).all (· < 128) ∨ line.getD 4 0 ≠ 46 ∨ line.getD 7 0 ≠ 46 ∨
        line.getD 10 0 ≠ 32 ∨ line.getD 13 0 ≠ 58 ∨ line.getD 16 0 ≠ 58 ∨
        line.getD 19 0 ≠ 32 then none
    else
      match parseI32 ((line.take 20).take 4), parseU32 (((line.take 20).drop 5).take 2),
          parseU32 (((line.take 20).drop 8).take 2), parseU32 (((line.take 20).drop 11).take 2),
          parseU32 (((line.take 20).drop 14).take 2),
          parseU32 (((line.take 20).drop 17).take 2) with
      | some y, some mo, some d, some h, some mi, some s =>
        if ¬ (dateValid y mo d ∧ timeValid h mi s) then none
        else
          match splitOnceSub (ascii "-  ") (line.drop 20) with
          | none => none
          | some (source, message) =>
            if trimEnd source ≠ ascii "Debug" then none
            else if message = ascii "[Behaviour] Successfully left room" then
              some ⟨.leftRoom⟩
            else
              match stripPrefixB (ascii "[Behaviour] Joining ") message with
              | none => none
              | some idStr =>
                match parseRoomId idStr with
                | some room => some ⟨.joiningRoom room⟩
                | none => none
      | _, _, _, _, _, _ => none

/-! ## Line framing in `file_log_events` (src/log.rs:273-301)

The loop `read_until(b'\n')`-accumulates into a buffer until the buffer
ends with `\r\n`; since `read_until` completes exactly at each `\n`
(the `LogReader` never reports end-of-file), the framed line is the
prefix of the remaining content up to the first occurrence of `\r\n`,
with the two terminator bytes removed. -/

def crlf : List Nat := [13, 10]

/-- The framing layer, with fuel (the content length bounds the number
of frames): split the content into completed frames (their `\r\n`
terminators removed) and the still-buffered partial line. -/
def splitFramesFuel : Nat → List Nat → List (List Nat) × List Nat
  | 0, content => ([], content)
  | fuel + 1, content =>
    match findSub crlf content with
    | none => ([], content)
    | some i =>
      (content.take i :: (splitFramesFuel fuel (content.drop (i + 2))).1,
        (splitFramesFuel fuel (content.drop (i + 2))).2)

/-- The framing layer of `file_log_events`. -/
def splitFrames (content : List Nat) : List (List Nat) × List Nat :=
  splitFramesFuel content.length content

/-- UTF-8 validity of a byte list (the check done by
`str::from_utf8`). -/
def isValidUtf8 : List Nat → Bool
  | [] => true
  | c :: r =>
    if c < 128 then isValidUtf8 r
    else if 194 ≤ c ∧ c ≤ 223 then
      match r with
      | c1 :: r2 => (128 ≤ c1 && c1 < 192) && isValidUtf8 r2
      | _ => false
    else if c = 224 then
      match r with
      | c1 :: c2 :: r2 => (160 ≤ c1 && c1 < 192) && (128 ≤ c2 && c2 < 192) && isValidUtf8 r2
      | _ => false
    else if (225 ≤ c ∧ c ≤ 236) ∨ c = 238 ∨ c = 239 then
      match r with
      | c1 :: c2 :: r2 => (128 ≤ c1 && c1 < 192) && (128 ≤ c2 && c2 < 192) && isValidUtf8 r2
      | _ => false
    else if c = 237 then
      match r with
      | c1 :: c2 :: r2 => (128 ≤ c1 && c1 < 160) && (128 ≤ c2 && c2 < 192) && isValidUtf8 r2
      | _ => false
    else if c = 240 then
      match r with
      | c1 :: c2 :: c3 :: r2 =>
        (144 ≤ c1 && c1 < 192) && (128 ≤ c2 && c2 < 192) && (128 ≤ c3 && c3 < 192) &&
          isValidUtf8 r2
      | _ => false
    else if 241 ≤ c ∧ c ≤ 243 then
      match r with
      | c1 :: c2 :: c3 :: r2 =>
        (128 ≤ c1 && c1 < 192) && (128 ≤ c2 && c2 < 192) && (128 ≤ c3 && c3 < 192) &&
          isValidUtf8 r2
      | _ => false
    else if c = 244 then
      match r with
      | c1 :: c2 :: c3 :: r2 =>
        (128 ≤ c1 && c1 < 144) && (128 ≤ c2 && c2 < 192) && (128 ≤ c3 && c3 < 192) &&
          isValidUtf8 r2
      | _ => false
    else false

/-- Rust `file_log_events` applied to the byte content read so far: each
completed frame that decodes as UTF-8 is given to `parse_line`, and the
events are collected in order. -/
def fileLogEvents (content : List Nat) : List LogEvent :=
  (splitFrames content).1.filterMap fun b =>
    if isValidUtf8 b then parseLine b else none


/-! ## Order facts about timestamps -/

theorem DateTime.ltb_iff {a b : DateTime} : a.ltb b = true ↔ a.key < b.key := by
  simp [DateTime.ltb]

theorem DateTime.ltb_trans {a b c : DateTime} (h1 : a.ltb b = true) (h2 : b.ltb c = true) :
    a.ltb c = true :=
  DateTime.ltb_iff.mpr (lt_trans (DateTime.ltb_iff.mp h1) (DateTime.ltb_iff.mp h2))

theorem DateTime.ltb_false_of_le {a b : DateTime} (h : b.key ≤ a.key) : a.ltb b = false := by
  simpa [DateTime.ltb] using not_lt.mpr h

/-! ## Behaviour of the notification loop -/

theorem emittedTs_nil : emittedTs [] = [] := rfl

theorem emittedTs_file (f : LogFile) (l : List Emission) :
    emittedTs (.file f :: l) = f.timestamp :: emittedTs l := rfl

theorem notifLoop_spec (msgs : List NotifyMsg) : ∀ (cur : Option DateTime),
    (emittedTs (notifLoop cur msgs)).Pairwise (fun a b => a.ltb b = true) ∧
    ∀ t ∈ emittedTs (notifLoop cur msgs), ∀ c, cur = some c → c.ltb t = true := by
  induction msgs with
  | nil => simp [notifLoop, emittedTs]
  | cons m rest ih =>
    intro cur
    match m with
    | .err => simp [notifLoop, emittedTs]
    | .log f =>
      by_cases hacc : acceptTs cur f.timestamp = true
      · rw [notifLoop, if_pos hacc]
        obtain ⟨hpw, hgt⟩ := ih (some f.timestamp)
        refine ⟨?_, ?_⟩
        · rw [emittedTs_file, List.pairwise_cons]
          exact ⟨fun t ht => hgt t ht f.timestamp rfl, hpw⟩
        · intro t ht c hc
          rw [emittedTs_file] at ht
          rcases List.mem_cons.mp ht with h | h
          · subst h hc
            simpa [acceptTs] using hacc
          · subst hc
            have h1 : c.ltb f.timestamp = true := by simpa [acceptTs] using hacc
            exact DateTime.ltb_trans h1 (hgt t h f.timestamp rfl)
      · rw [notifLoop, if_neg hacc]
        exact ih cur

/-! ## Behaviour of the initial scan -/

theorem scanFold_spec (dir : List Nat) (entries : List DirEntry) : ∀ (acc : Option LogFile),
    (List.foldl (scanStep dir) acc entries = none ↔ acc = none ∧ scanCandidates entries = []) ∧
    ∀ f, List.foldl (scanStep dir) acc entries = some f →
      (acc = some f ∨ ∃ e ∈ entries, e.isRegular = true ∧
        parseLogFileName e.name = some f.timestamp ∧ f.path = joinPath dir e.name) ∧
      (∀ t ∈ scanCandidates entries, t.key ≤ f.timestamp.key) ∧
      (∀ a, acc = some a → a.timestamp.key ≤ f.timestamp.key) := by
  induction entries with
  | nil =>
    intro acc
    simp only [List.foldl_nil]
    refine ⟨by simp [scanCandidates], fun f hf => ⟨Or.inl hf, by simp [scanCandidates], ?_⟩⟩
    intro a ha
    rw [hf] at ha
    cases Option.some.inj ha
    exact le_refl _
  | cons e rest ih =>
    intro acc
    rw [List.foldl_cons]
    match hp : parseLogFileName e.name with
    | none =>
      have hcand : scanCandidates (e :: rest) = scanCandidates rest := by
        simp [scanCandidates, List.filterMap_cons, hp]
      have hstep : scanStep dir acc e = acc := by simp [scanStep, hp]
      rw [hstep, hcand]
      obtain ⟨hnone, hsome⟩ := ih acc
      refine ⟨hnone, fun f hf => ?_⟩
      obtain ⟨horig, hmax, haccle⟩ := hsome f hf
      refine ⟨?_, hmax, haccle⟩
      rcases horig with h | ⟨e', he', h1, h2, h3⟩
      · exact Or.inl h
      · exact Or.inr ⟨e', List.mem_cons_of_mem _ he', h1, h2, h3⟩
    | some ts =>
      by_cases hr : e.isRegular = true
      · have hcand : scanCandidates (e :: rest) = ts :: scanCandidates rest := by
          simp [scanCandidates, List.filterMap_cons, hp, hr]
        by_cases hacc : acceptTs (acc.map (·.timestamp)) ts = true
        · have hstep : scanStep dir acc e = some ⟨joinPath dir e.name, ts⟩ := by
            simp [scanStep, hp, hr, hacc]
          rw [hstep, hcand]
          obtain ⟨hnone, hsome⟩ := ih (some ⟨joinPath dir e.name, ts⟩)
          refine ⟨by rw [hnone]; simp, ?_⟩
          intro f hf
          obtain ⟨horig, hmax, haccle⟩ := hsome f hf
          refine ⟨?_, ?_, ?_⟩
          · right
            rcases horig with h | ⟨e', he', h1, h2, h3⟩
            · have hfe : (⟨joinPath dir e.name, ts⟩ : LogFile) = f := Option.some.inj h
              refine ⟨e, List.mem_cons_self e rest, hr, ?_, ?_⟩
              · rw [← hfe]
                exact hp
              · rw [← hfe]
            · exact ⟨e', List.mem_cons_of_mem _ he', h1, h2, h3⟩
          · intro t ht
            rcases List.mem_cons.mp ht with h | h
            · subst h
              exact haccle ⟨joinPath dir e.name, t⟩ rfl
            · exact hmax t h
          · intro a ha
            subst ha
            have h1 : a.timestamp.ltb ts = true := by
              simpa [acceptTs] using hacc
            exact le_trans (le_of_lt (DateTime.ltb_iff.mp h1))
              (haccle ⟨joinPath dir e.name, ts⟩ rfl)
        · have hstep : scanStep dir acc e = acc := by
            simp [scanStep, hp, hr, hacc]
          rw [hstep, hcand]
          obtain ⟨ha, has⟩ : ∃ a, acc = some a := by
            match acc with
            | some a => exact ⟨a, rfl⟩
            | none => simp [acceptTs] at hacc
          obtain ⟨hnone, hsome⟩ := ih acc
          refine ⟨by rw [hnone]; simp [has], ?_⟩
          intro f hf
          obtain ⟨horig, hmax, haccle⟩ := hsome f hf
          refine ⟨?_, ?_, haccle⟩
          · rcases horig with h | ⟨e', he', h1, h2, h3⟩
            · exact Or.inl h
            · exact Or.inr ⟨e', List.mem_cons_of_mem _ he', h1, h2, h3⟩
          · intro t ht
            rcases List.mem_cons.mp ht with h | h
            · subst h
              have hnlt : ¬ (ha.timestamp.key < t.key) := by
                have hf2 : ha.timestamp.ltb t = false := by
                  simpa [acceptTs, has] using hacc
                simpa [DateTime.ltb] using hf2
              exact le_trans (not_lt.mp hnlt) (haccle ha has)
            · exact hmax t h
      · have hcand : scanCandidates (e :: rest) = scanCandidates rest := by
          simp [scanCandidates, List.filterMap_cons, hp, hr]
        have hstep : scanStep dir acc e = acc := by simp [scanStep, hp, hr]
        rw [hstep, hcand]
        obtain ⟨hnone, hsome⟩ := ih acc
        refine ⟨hnone, fun f hf => ?_⟩
        obtain ⟨horig, hmax, haccle⟩ := hsome f hf
        refine ⟨?_, hmax, haccle⟩
        rcases horig with h | ⟨e', he', h1, h2, h3⟩
        · exact Or.inl h
        · exact Or.inr ⟨e', List.mem_cons_of_mem _ he', h1, h2, h3⟩

/-- C1: the timestamps of the descriptors emitted by `log_files` are
strictly increasing: whether a candidate comes from the initial scan or
from a later notification, it is emitted only if no descriptor has been
emitted yet or its timestamp is strictly greater than every previously
emitted timestamp (pairwise strict increase of the emitted sequence),
and a notification candidate whose timestamp is less than or equal to
the current one produces no emission. -/
theorem log_files_timestamps_strictly_increasing
    (dir : List Nat) (entries : List DirEntry) (raw : List (Except Unit NotifyEvent)) :
    (emittedTs (logFilesRun dir entries raw)).Pairwise (fun a b => a.ltb b = true) ∧
    ∀ (cur : DateTime) (f : LogFile) (rest : List NotifyMsg),
      f.timestamp.key ≤ cur.key →
      notifLoop (some cur) (.log f :: rest) = notifLoop (some cur) rest := by
  constructor
  · rw [logFilesRun]
    unfold logFilesEmissions
    match h : scanLatest dir entries with
    | none => exact (notifLoop_spec _ none).1
    | some f =>
      obtain ⟨hpw, hgt⟩ := notifLoop_spec (raw.filterMap processNotify) (some f.timestamp)
      rw [emittedTs_file, List.pairwise_cons]
      exact ⟨fun t ht => hgt t ht f.timestamp rfl, hpw⟩
  · intro cur f rest hle
    rw [notifLoop, if_neg]
    simp [acceptTs, DateTime.ltb_false_of_le hle]

/-- Witness for C1, second part: a candidate with an older timestamp
than the current one is dropped. -/
theorem log_files_timestamps_strictly_increasing_witness :
    notifLoop (some ⟨2024, 1, 2, 0, 0, 0⟩) [.log ⟨ascii "p", ⟨2024, 1, 1, 0, 0, 0⟩⟩] =
      notifLoop (some ⟨2024, 1, 2, 0, 0, 0⟩) [] :=
  (log_files_timestamps_strictly_increasing (ascii "d") [] []).2
    ⟨2024, 1, 2, 0, 0, 0⟩ ⟨ascii "p", ⟨2024, 1, 1, 0, 0, 0⟩⟩ [] (by decide)

/-- C3: the first descriptor emitted by `log_files` is the winner of
the initial scan: a regular file whose name matches the grammar, whose
parsed timestamp is the maximum among all qualifying entries (malformed
names are ignored and entries with unreadable metadata are skipped, as
they never enter `scanCandidates` and never make the scan fail); if no
entry qualifies, the scan emits nothing and the stream proceeds with
the notification loop. -/
theorem initial_scan_selects_max (dir : List Nat) (entries : List DirEntry)
    (msgs : List NotifyMsg) :
    (scanLatest dir entries = none ↔ scanCandidates entries = []) ∧
    (scanLatest dir entries = none → logFilesEmissions dir entries msgs = notifLoop none msgs) ∧
    ∀ f, scanLatest dir entries = some f →
      (logFilesEmissions dir entries msgs).head? = some (.file f) ∧
      (∃ e ∈ entries, e.isRegular = true ∧ parseLogFileName e.name = some f.timestamp ∧
        f.path = joinPath dir e.name) ∧
      ∀ t ∈ scanCandidates entries, t.key ≤ f.timestamp.key := by
  obtain ⟨hnone, hsome⟩ := scanFold_spec dir entries none
  refine ⟨by simpa [scanLatest] using hnone, ?_, ?_⟩
  · intro h
    simp [logFilesEmissions, h]
  · intro f hf
    obtain ⟨horig, hmax, _⟩ := hsome f hf
    refine ⟨by simp [logFilesEmissions, hf], ?_, hmax⟩
    rcases horig with h | h
    · simp at h
    · exact h

/-- Witness for C3: on `demoEntries` the first emission is the regular
file with the greatest parsed timestamp, 2024-03-03. -/
theorem initial_scan_selects_max_witness :
    (logFilesEmissions (ascii "logs") demoEntries []).head? =
      some (.file ⟨joinPath (ascii "logs") (ascii "output_log_2024-03-03_00-00-00.txt"),
        ⟨2024, 3, 3, 0, 0, 0⟩⟩) :=
  ((initial_scan_selects_max (ascii "logs") demoEntries []).2.2
    ⟨joinPath (ascii "logs") (ascii "output_log_2024-03-03_00-00-00.txt"),
      ⟨2024, 3, 3, 0, 0, 0⟩⟩ (by decide)).1

/-! ## Characters accepted by the integer parsers -/

theorem parseU32_chars {s : List Nat} {v : Nat} (h : parseU32 s = some v) :
    ∀ c ∈ s, isDigitB c = true ∨ c = 43 ∨ c = 45 := by
  match s with
  | [] => simp [parseU32] at h
  | c0 :: rest =>
    rw [parseU32] at h
    intro c hc
    by_cases hsign : c0 = 43 ∨ c0 = 45
    · rw [if_pos hsign] at h
      by_cases hd : rest = [] ∨ ¬ rest.all isDigitB = true
      · rw [if_pos hd] at h
        exact absurd h (by simp)
      · push_neg at hd
        rcases List.mem_cons.mp hc with rfl | hcr
        · exact Or.inr hsign
        · exact Or.inl (List.all_eq_true.mp hd.2 c hcr)
    · rw [if_neg hsign] at h
      by_cases hall : (c0 :: rest).all isDigitB = true
      · exact Or.inl (List.all_eq_true.mp hall c hc)
      · rw [if_pos hall] at h
        exact absurd h (by simp)

theorem parseI32_chars {s : List Nat} {v : Int} (h : parseI32 s = some v) :
    ∀ c ∈ s, isDigitB c = true ∨ c = 43 ∨ c = 45 := by
  match s with
  | [] => simp [parseI32] at h
  | c0 :: rest =>
    rw [parseI32] at h
    intro c hc
    by_cases hsign : c0 = 43 ∨ c0 = 45
    · rw [if_pos hsign] at h
      by_cases hd : rest = [] ∨ ¬ rest.all isDigitB = true
      · rw [if_pos hd] at h
        exact absurd h (by simp)
      · push_neg at hd
        rcases List.mem_cons.mp hc with rfl | hcr
        · exact Or.inr hsign
        · exact Or.inl (List.all_eq_true.mp hd.2 c hcr)
    · rw [if_neg hsign] at h
      by_cases hall : (c0 :: rest).all isDigitB = true
      · exact Or.inl (List.all_eq_true.mp hall c hc)
      · rw [if_pos hall] at h
        exact absurd h (by simp)

/-! ## Slice utilities -/

theorem getD_slice (l : List Nat) (off len j : Nat) (hj : j < len)
    (hlen : off + len ≤ l.length) :
    ((l.drop off).take len).getD j 0 = l.getD (off + j) 0 := by
  have h1 : j < ((l.drop off).take len).length := by
    simp [List.length_take, List.length_drop]
    omega
  have h2 : off + j < l.length := by omega
  rw [List.getD_eq_getElem _ _ h1, List.getD_eq_getElem _ _ h2]
  rw [List.getElem_take, List.getElem_drop]

theorem getD_mem_slice (l : List Nat) (off len j : Nat) (hj : j < len)
    (hlen : off + len ≤ l.length) :
    l.getD (off + j) 0 ∈ (l.drop off).take len := by
  rw [← getD_slice l off len j hj hlen]
  have h1 : j < ((l.drop off).take len).length := by
    simp [List.length_take, List.length_drop]
    omega
  rw [List.getD_eq_getElem _ _ h1]
  exact List.getElem_mem h1

/-! ## Inversion of `strip_prefix` / `strip_suffix` -/

theorem stripPrefixB_eq_some {p s r : List Nat} (h : stripPrefixB p s = some r) :
    s = p ++ r ∧ s.take p.length = p ∧ r = s.drop p.length := by
  unfold stripPrefixB at h
  split_ifs at h with hc
  cases h
  exact ⟨by conv_lhs => rw [← List.take_append_drop p.length s, hc], hc, rfl⟩

theorem stripSuffixB_eq_some {p s r : List Nat} (h : stripSuffixB p s = some r) :
    s = r ++ p ∧ r.length = s.length - p.length ∧ p.length ≤ s.length := by
  unfold stripSuffixB at h
  split_ifs at h with hc
  obtain ⟨hle, hdrop⟩ := hc
  cases h
  refine ⟨?_, ?_, hle⟩
  · conv_lhs => rw [← List.take_append_drop (s.length - p.length) s, hdrop]
  · simp only [List.length_take]
    omega

/-- Counterexample to C5 as stated: the month field of this filename
contains the non-numeric byte `+` (43) at offset 16, yet the name still
parses, because Rust integer parsing accepts an optional leading sign. -/
theorem parse_log_file_name_sign_cex :
    parseLogFileName (ascii "output_log_2024-+1-05_10-20-30.txt") =
      some ⟨2024, 1, 5, 10, 20, 30⟩ ∧
    (ascii "output_log_2024-+1-05_10-20-30.txt").getD 16 0 = 43 := by
  decide

/-- C5 (amended): `parse_log_file_name` returns a timestamp only for
filenames of exactly the form `output_log_<body>.txt` with a 19-byte
body, separator bytes `-`/`_` at body offsets 4, 7, 10, 13, 16, fields
that parse as Rust integers — ASCII digit strings with an optional
single leading sign, so every body byte is a digit, `+`, `-`, or `_` —
and parsed values forming a valid calendar date and time. -/
theorem parse_log_file_name_shape (name : List Nat) (t : DateTime)
    (h : parseLogFileName name = some t) :
    name.length = 34 ∧
    name.take 11 = ascii "output_log_" ∧
    name.drop 30 = ascii ".txt" ∧
    name.getD 15 0 = 45 ∧ name.getD 18 0 = 45 ∧ name.getD 21 0 = 95 ∧
    name.getD 24 0 = 45 ∧ name.getD 27 0 = 45 ∧
    parseI32 ((name.drop 11).take 4) = some t.year ∧
    parseU32 ((name.drop 16).take 2) = some t.month ∧
    parseU32 ((name.drop 19).take 2) = some t.day ∧
    parseU32 ((name.drop 22).take 2) = some t.hour ∧
    parseU32 ((name.drop 25).take 2) = some t.minute ∧
    parseU32 ((name.drop 28).take 2) = some t.second ∧
    dateValid t.year t.month t.day = true ∧
    timeValid t.hour t.minute t.second = true ∧
    ∀ i, 11 ≤ i → i < 30 →
      isDigitB (name.getD i 0) = true ∨ name.getD i 0 = 43 ∨ name.getD i 0 = 45 ∨
        name.getD i 0 = 95 := by
  rw [parseLogFileName] at h
  split at h
  · cases h
  next t1 hp =>
    split at h
    · cases h
    next ts hs =>
      by_cases h1 : ts.length ≠ 19 ∨ ¬ ts.all (· < 128) = true
      · rw [if_pos h1] at h; cases h
      rw [if_neg h1] at h
      push_neg at h1
      obtain ⟨hlen, _⟩ := h1
      by_cases h2 : ts.getD 4 0 ≠ 45 ∨ ts.getD 7 0 ≠ 45 ∨ ts.getD 10 0 ≠ 95 ∨
          ts.getD 13 0 ≠ 45 ∨ ts.getD 16 0 ≠ 45
      · rw [if_pos h2] at h; cases h
      rw [if_neg h2] at h
      push_neg at h2
      obtain ⟨hb4, hb7, hb10, hb13, hb16⟩ := h2
      obtain ⟨hname, hpretake, ht1⟩ := stripPrefixB_eq_some hp
      obtain ⟨ht1eq, htslen, hsuffle⟩ := stripSuffixB_eq_some hs
      have hprelen : (ascii "output_log_").length = 11 := by decide
      have hsuflen : (ascii ".txt").length = 4 := by decide
      have ht1len : t1.length = 23 := by
        rw [ht1eq]
        simp [hlen, hsuflen]
      have hnamelen : name.length = 34 := by
        rw [hname]
        simp [hprelen, ht1len]
      have hts : ts = (name.drop 11).take 19 := by
        rw [hname, ht1eq, ← hprelen, List.drop_left]
        rw [← hlen, List.take_left]
      have hgetD : ∀ j, j < 19 → ts.getD j 0 = name.getD (11 + j) 0 := by
        intro j hj
        rw [hts]
        exact getD_slice name 11 19 j hj (by omega)
      have hslice : ∀ j k, j + k ≤ 19 → (ts.drop j).take k = (name.drop (11 + j)).take k := by
        intro j k hjk
        rw [hts, List.drop_take, List.take_take, List.drop_drop]
        congr 1
        omega
      have htake : ∀ k, k ≤ 19 → ts.take k = (name.drop 11).take k := by
        intro k hk
        have := hslice 0 k (by omega)
        simpa using this
      split at h
      · next y mo d hh mi s hy hmo hd hhh hmi hs2 =>
        split_ifs at h with hvalid
        cases h
        obtain ⟨hdv, htv⟩ := hvalid
        refine ⟨hnamelen, by rw [← hprelen]; exact hpretake, ?_, ?_, ?_, ?_, ?_, ?_,
          ?_, ?_, ?_, ?_, ?_, ?_, hdv, htv, ?_⟩
        · rw [hname, ht1eq, ← List.append_assoc]
          exact List.drop_left' (by simp [hprelen, hlen])
        · rw [← hgetD 4 (by omega)]; exact hb4
        · rw [← hgetD 7 (by omega)]; exact hb7
        · rw [← hgetD 10 (by omega)]; exact hb10
        · rw [← hgetD 13 (by omega)]; exact hb13
        · rw [← hgetD 16 (by omega)]; exact hb16
        · rw [← htake 4 (by omega)]; exact hy
        · rw [← hslice 5 2 (by omega)]; exact hmo
        · rw [← hslice 8 2 (by omega)]; exact hd
        · rw [← hslice 11 2 (by omega)]; exact hhh
        · rw [← hslice 14 2 (by omega)]; exact hmi
        · rw [← hslice 17 2 (by omega)]; exact hs2
        · intro i hi11 hi30
          obtain ⟨j, hj19, rfl⟩ : ∃ j, j < 19 ∧ i = 11 + j := ⟨i - 11, by omega, by omega⟩
          rw [← hgetD j hj19]
          have hmemtake : ∀ k, j < k → k ≤ 19 → ts.getD j 0 ∈ ts.take k := by
            intro k hjk hk19
            have := getD_mem_slice ts 0 k j hjk (by omega)
            simpa using this
          have hmemslice : ∀ o k, o ≤ j → j < o + k → o + k ≤ 19 →
              ts.getD j 0 ∈ (ts.drop o).take k := by
            intro o k ho hok h19
            have := getD_mem_slice ts o k (j - o) (by omega) (by omega)
            have hoj : o + (j - o) = j := by omega
            rw [hoj] at this
            exact this
          have lift3 : ∀ {c : Nat}, (isDigitB c = true ∨ c = 43 ∨ c = 45) →
              (isDigitB c = true ∨ c = 43 ∨ c = 45 ∨ c = 95) := by
            intro c hc
            rcases hc with h | h | h
            · exact Or.inl h
            · exact Or.inr (Or.inl h)
            · exact Or.inr (Or.inr (Or.inl h))
          interval_cases j
          · exact lift3 (parseI32_chars hy _ (hmemtake 4 (by omega) (by omega)))
          · exact lift3 (parseI32_chars hy _ (hmemtake 4 (by omega) (by omega)))
          · exact lift3 (parseI32_chars hy _ (hmemtake 4 (by omega) (by omega)))
          · exact lift3 (parseI32_chars hy _ (hmemtake 4 (by omega) (by omega)))
          · exact Or.inr (Or.inr (Or.inl hb4))
          · exact lift3 (parseU32_chars hmo _ (hmemslice 5 2 (by omega) (by omega) (by omega)))
          · exact lift3 (parseU32_chars hmo _ (hmemslice 5 2 (by omega) (by omega) (by omega)))
          · exact Or.inr (Or.inr (Or.inl hb7))
          · exact lift3 (parseU32_chars hd _ (hmemslice 8 2 (by omega) (by omega) (by omega)))
          · exact lift3 (parseU32_chars hd _ (hmemslice 8 2 (by omega) (by omega) (by omega)))
          · exact Or.inr (Or.inr (Or.inr hb10))
          · exact lift3 (parseU32_chars hhh _ (hmemslice 11 2 (by omega) (by omega) (by omega)))
          · exact lift3 (parseU32_chars hhh _ (hmemslice 11 2 (by omega) (by omega) (by omega)))
          · exact Or.inr (Or.inr (Or.inl hb13))
          · exact lift3 (parseU32_chars hmi _ (hmemslice 14 2 (by omega) (by omega) (by omega)))
          · exact lift3 (parseU32_chars hmi _ (hmemslice 14 2 (by omega) (by omega) (by omega)))
          · exact Or.inr (Or.inr (Or.inl hb16))
          · exact lift3 (parseU32_chars hs2 _ (hmemslice 17 2 (by omega) (by omega) (by omega)))
          · exact lift3 (parseU32_chars hs2 _ (hmemslice 17 2 (by omega) (by omega) (by omega)))
      · next hne =>
        cases h

/-- Witness for C5 (amended): a fully well-formed name parses and has
the required prefix and length. -/
theorem parse_log_file_name_shape_witness :
    (ascii "output_log_2024-01-05_10-20-30.txt").take 11 = ascii "output_log_" ∧
    (ascii "output_log_2024-01-05_10-20-30.txt").length = 34 :=
  have h := parse_log_file_name_shape (ascii "output_log_2024-01-05_10-20-30.txt")
    ⟨2024, 1, 5, 10, 20, 30⟩ (by decide)
  ⟨h.2.1, h.1⟩

/-- C7: a `poll_read` whose read obtains `n + 1 ≥ 1` new bytes returns
immediately with those bytes, with no capacity condition on `n` and
without touching the timer; a read obtaining zero new bytes resets the
100 ms interval timer and, while the timer is pending, suspends; once
the timer fires the read is retried. -/
theorem log_reader_poll_read_progress (n : Nat) (fs : List FileRead) (ticks : List Bool)
    (r : Nat) :
    pollRead (.bytes (n + 1) :: fs) ticks r = some ⟨.readyBytes (n + 1), r⟩ ∧
    pollRead (.bytes 0 :: fs) (false :: ticks) r = some ⟨.pendingTimer, r + 1⟩ ∧
    pollRead (.bytes 0 :: fs) (true :: ticks) r = pollRead fs ticks (r + 1) ∧
    logReaderIntervalMillis = 100 ∧ logReaderDelaysMissedTicks = true :=
  ⟨rfl, rfl, rfl, rfl, rfl⟩

theorem emittedVals_cons {α : Type} (o : SwitchOut α) (outs : List (SwitchOut α)) :
    emittedVals (o :: outs) =
      (match o with | .value a => [a] | _ => []) ++ emittedVals outs := by
  match o with
  | .pending => rfl
  | .value a => rfl
  | .error => rfl
  | .ended => rfl

/-- While the outer stream yields no new inner stream, every value the
combinator outputs comes from the current inner stream's script, as a
prefix of its values in order. -/
theorem switchRun_vals_from_current {α : Type} (os : List (OuterPoll α))
    (hos : ∀ o ∈ os, o = .pend ∨ o = .done) (B : InnerS α) :
    emittedVals (switchRun ⟨some B⟩ os) <+: innerVals B := by
  induction os generalizing B with
  | nil => exact ⟨_, rfl⟩
  | cons o os ih =>
    have ho : o = OuterPoll.pend ∨ o = OuterPoll.done :=
      hos o (List.mem_cons_self o os)
    have hos' : ∀ o ∈ os, o = OuterPoll.pend ∨ o = OuterPoll.done := fun x hx =>
      hos x (List.mem_cons_of_mem o hx)
    have hpoll : switchPoll o (⟨some B⟩ : SwitchState α) = pollCurrent ⟨some B⟩ := by
      rcases ho with rfl | rfl <;> rfl
    rw [switchRun, hpoll]
    match B with
    | [] =>
      rw [pollCurrent]
      simp only [pollInner]
      rw [emittedVals_cons]
      simpa using ih hos' []
    | .pend :: r =>
      rw [pollCurrent]
      simp only [pollInner]
      rw [emittedVals_cons]
      simpa [innerVals] using ih hos' r
    | .val a :: r =>
      rw [pollCurrent]
      simp only [pollInner]
      rw [emittedVals_cons]
      simp only [innerVals, List.filterMap_cons]
      exact List.cons_prefix_cons.mpr ⟨rfl, ih hos' r⟩
    | .err :: r =>
      rw [pollCurrent]
      simp only [pollInner]
      rw [emittedVals_cons]
      simpa [innerVals] using ih hos' r
    | .done :: r =>
      rw [pollCurrent]
      simp only [pollInner]
      rw [emittedVals_cons]
      simpa [innerVals] using ih hos' r

/-- C2: when the outer stream yields a new inner stream `B` while `A`
was active, the run of the combinator from then on is completely
independent of `A` — the abandoned stream's unconsumed items are
discarded, never drained or merged — and, while no further inner stream
arrives, every output value is a prefix of `B`'s values in `B`'s own
order. -/
theorem switch_discards_previous_stream {α : Type} (A A' B : InnerS α)
    (os : List (OuterPoll α)) (hos : ∀ o ∈ os, o = .pend ∨ o = .done) :
    switchRun ⟨some A⟩ (.ok B :: os) = switchRun ⟨some A'⟩ (.ok B :: os) ∧
    emittedVals (switchRun ⟨some A⟩ (.ok B :: os)) <+: innerVals B := by
  refine ⟨rfl, ?_⟩
  have hstep : switchRun (⟨some A⟩ : SwitchState α) (.ok B :: os) =
      switchRun ⟨some B⟩ (.pend :: os) := rfl
  rw [hstep]
  refine switchRun_vals_from_current (.pend :: os) ?_ B
  intro o ho
  rcases List.mem_cons.mp ho with rfl | h
  · exact Or.inl rfl
  · exact hos o h

/-- Witness for C2: a concrete run in which the previously active
stream still holds unconsumed values. -/
theorem switch_discards_previous_stream_witness :
    switchRun (⟨some [.val 1, .val 2]⟩ : SwitchState Nat) [.ok [.val 7], .pend] =
      switchRun ⟨some [.val 9]⟩ [.ok [.val 7], .pend] :=
  (switch_discards_previous_stream [.val 1, .val 2] [.val 9] [.val 7] [.pend]
    (by decide)).1

/-- Counterexample to C8 as stated: the outer error is forwarded, but
the combinator does not terminate — polled again, it still emits value
7 from the retained inner stream, so something is produced after the
error. -/
theorem switch_outer_error_cex :
    switchRun (⟨some [.val 7]⟩ : SwitchState Nat) [.err, .pend] = [.error, .value 7] ∧
    emittedVals (switchRun (⟨some [.val 7]⟩ : SwitchState Nat) [.err, .pend]) = [7] := by
  decide

/-- C8 (amended): an error from the outer stream is forwarded as the
combinator's next output, leaving the inner slot untouched, and an
error polled from the currently active inner stream is likewise
forwarded; the combinator itself does not terminate — its state is
retained and later polls keep polling the outer stream and the
retained inner stream (in the application the consumer stops at the
first forwarded error). -/
theorem switch_error_forwarding {α : Type} (st : SwitchState α) (s : InnerS α) :
    switchPoll .err st = (st, .error) ∧
    switchPoll .pend ⟨some (.err :: s)⟩ = (⟨some s⟩, .error) ∧
    switchPoll .done ⟨some (.err :: s)⟩ = (⟨some s⟩, .error) :=
  ⟨rfl, rfl, rfl⟩

set_option maxRecDepth 20000 in
/-- C4: the two sample lines parse to `LeftRoom` and to `JoiningRoom`
with world UUID `900dd077-1337-c0fe-babe-71de05ea12c4`, instance id
46115 and exactly the attribute pair
(`hidden`, `usr_38116327-5a34-4fd8-ace0-21c93fb3f163`). -/
theorem parse_line_examples :
    parseLine (ascii "2024.01.01 00:00:00 Debug      -  [Behaviour] Successfully left room") =
      some ⟨.leftRoom⟩ ∧
    parseLine (ascii "2024.01.01 00:00:00 Debug      -  [Behaviour] Joining wrld_900dd077-1337-c0fe-babe-71de05ea12c4:46115~hidden(usr_38116327-5a34-4fd8-ace0-21c93fb3f163)") =
      some ⟨.joiningRoom ⟨0x900dd0771337c0febabe71de05ea12c4,
        ⟨46115, [(ascii "hidden", ascii "usr_38116327-5a34-4fd8-ace0-21c93fb3f163")]⟩⟩⟩ := by
  decide

/-- C6: a line failing any step of the grammar — too short, byte 20 not
a character boundary, a wrong separator byte at a fixed timestamp
offset, numeric fields that do not form a valid calendar date and time,
no `-  ` separator in the remainder, or a trimmed source tag other than
`Debug` — produces no event (and, the model being a total function into
`Option`, never an error). -/
theorem parse_line_rejects (line : List Nat) :
    (line.length < 20 ∨
     isCharBoundary line 20 = false ∨
     line.getD 4 0 ≠ 46 ∨ line.getD 7 0 ≠ 46 ∨ line.getD 10 0 ≠ 32 ∨
     line.getD 13 0 ≠ 58 ∨ line.getD 16 0 ≠ 58 ∨ line.getD 19 0 ≠ 32 ∨
     (∀ y mo d h mi s, parseI32 ((line.take 20).take 4) = some y →
        parseU32 (((line.take 20).drop 5).take 2) = some mo →
        parseU32 (((line.take 20).drop 8).take 2) = some d →
        parseU32 (((line.take 20).drop 11).take 2) = some h →
        parseU32 (((line.take 20).drop 14).take 2) = some mi →
        parseU32 (((line.take 20).drop 17).take 2) = some s →
        ¬ (dateValid y mo d = true ∧ timeValid h mi s = true)) ∨
     splitOnceSub (ascii "-  ") (line.drop 20) = none ∨
     (∀ source message,
        splitOnceSub (ascii "-  ") (line.drop 20) = some (source, message) →
        trimEnd source ≠ ascii "Debug")) →
    parseLine line = none := by
  intro hcond
  rw [parseLine]
  by_cases h1 : line.length < 20 ∨ isCharBoundary line 20 = false
  · rw [if_pos h1]
  rw [if_neg h1]
  by_cases h2 : ¬ (line.take 20).all (· < 128) = true ∨ line.getD 4 0 ≠ 46 ∨
      line.getD 7 0 ≠ 46 ∨ line.getD 10 0 ≠ 32 ∨ line.getD 13 0 ≠ 58 ∨
      line.getD 16 0 ≠ 58 ∨ line.getD 19 0 ≠ 32
  · rw [if_pos h2]
  rw [if_neg h2]
  push_neg at h1 h2
  obtain ⟨hlen, hbound⟩ := h1
  obtain ⟨hascii, hs4, hs7, hs10, hs13, hs16, hs19⟩ := h2
  rcases hcond with hc | hc | hc | hc | hc | hc | hc | hc | hc | hc | hc
  · omega
  · exact absurd hc hbound
  · exact absurd hs4 hc
  · exact absurd hs7 hc
  · exact absurd hs10 hc
  · exact absurd hs13 hc
  · exact absurd hs16 hc
  · exact absurd hs19 hc
  · split
    · next y mo d h mi s hy hmo hd hh hmi hs2 =>
      rw [if_pos]
      exact hc y mo d h mi s hy hmo hd hh hmi hs2
    · rfl
  · split
    · next y mo d h mi s hy hmo hd hh hmi hs2 =>
      by_cases hvalid : dateValid y mo d = true ∧ timeValid h mi s = true
      · rw [if_neg (by simpa using hvalid), hc]
      · rw [if_pos hvalid]
    · rfl
  · split
    · next y mo d h mi s hy hmo hd hh hmi hs2 =>
      by_cases hvalid : dateValid y mo d = true ∧ timeValid h mi s = true
      · rw [if_neg (by simpa using hvalid)]
        split
        · rfl
        · next source message hsp =>
          rw [if_pos (hc source message hsp)]
      · rw [if_pos hvalid]
    · rfl

/-- Witness for C6: a too-short line yields no event. -/
theorem parse_line_rejects_witness : parseLine (ascii "short") = none :=
  parse_line_rejects (ascii "short") (Or.inl (by decide))

theorem startsWith_take {pat l : List Nat} {k : Nat}
    (h : startsWith pat (l.take k) = true) : startsWith pat l = true := by
  simp only [startsWith, decide_eq_true_eq] at *
  have hlen : pat.length ≤ k ∧ pat.length ≤ l.length := by
    have := congrArg List.length h
    simp only [List.length_take] at this
    omega
  rw [List.take_take, Nat.min_eq_left hlen.1] at h
  exact h

theorem findSub_le {pat l : List Nat} {i : Nat} (h : findSub pat l = some i) :
    i + pat.length ≤ l.length := by
  induction l generalizing i with
  | nil =>
    rw [findSub] at h
    split_ifs at h with hp
    · cases h
      simp [hp]
  | cons c rest ih =>
    rw [findSub] at h
    split_ifs at h with hs
    · cases h
      simp only [startsWith, decide_eq_true_eq] at hs
      have := congrArg List.length hs
      simp only [List.length_take, List.length_cons] at this
      simp only [List.length_cons]
      omega
    · cases hfr : findSub pat rest with
      | none => rw [hfr] at h; cases h
      | some j =>
        rw [hfr] at h
        cases h
        have := ih hfr
        simp only [List.length_cons]
        omega

theorem findSub_take_none {pat l : List Nat} {i : Nat} (hpat : pat ≠ [])
    (h : findSub pat l = some i) : findSub pat (l.take i) = none := by
  induction l generalizing i with
  | nil =>
    rw [findSub] at h
    split_ifs at h with hp
    exact absurd hp hpat
  | cons c rest ih =>
    rw [findSub] at h
    split_ifs at h with hs
    · cases h
      simp [findSub, hpat]
    · cases hfr : findSub pat rest with
      | none => rw [hfr] at h; cases h
      | some j =>
        rw [hfr] at h
        cases h
        have htake : (c :: rest).take (j + 1) = c :: rest.take j := rfl
        rw [htake, findSub]
        have hns : ¬ startsWith pat (c :: rest.take j) = true := by
          intro hsw
          exact hs (startsWith_take (k := j + 1) (by rw [htake]; exact hsw))
        rw [if_neg hns, ih hfr]
        rfl

theorem findSub_decompose {pat l : List Nat} {i : Nat} (h : findSub pat l = some i) :
    l = l.take i ++ pat ++ l.drop (i + pat.length) := by
  induction l generalizing i with
  | nil =>
    rw [findSub] at h
    split_ifs at h with hp
    · cases h
      simp [hp]
  | cons c rest ih =>
    rw [findSub] at h
    split_ifs at h with hs
    · cases h
      simp only [startsWith, decide_eq_true_eq] at hs
      simp only [List.take_zero, List.nil_append, Nat.zero_add]
      conv_lhs => rw [← List.take_append_drop pat.length (c :: rest), hs]
    · cases hfr : findSub pat rest with
      | none => rw [hfr] at h; cases h
      | some j =>
        rw [hfr] at h
        cases h
        have hrec := ih hfr
        have htake : (c :: rest).take (j + 1) = c :: rest.take j := rfl
        have hdrop : (c :: rest).drop (j + 1 + pat.length) = rest.drop (j + pat.length) := by
          have : j + 1 + pat.length = (j + pat.length) + 1 := by omega
          rw [this]
          rfl
        rw [htake, hdrop]
        conv_lhs => rw [hrec]
        simp

theorem splitFramesFuel_none (fuel : Nat) {content : List Nat}
    (hf : findSub crlf content = none) : splitFramesFuel fuel content = ([], content) := by
  match fuel with
  | 0 => rfl
  | k + 1 =>
    rw [splitFramesFuel, hf]

theorem splitFramesFuel_adequate : ∀ fuel fuel2 (content : List Nat), content.length ≤ fuel →
    content.length ≤ fuel2 → splitFramesFuel fuel content = splitFramesFuel fuel2 content := by
  intro fuel
  induction fuel with
  | zero =>
    intro fuel2 content h1 h2
    have hc : content = [] := List.eq_nil_of_length_eq_zero (by omega)
    subst hc
    match fuel2 with
    | 0 => rfl
    | k + 1 => rfl
  | succ k ih =>
    intro fuel2 content h1 h2
    match fuel2 with
    | 0 =>
      have hc : content = [] := List.eq_nil_of_length_eq_zero (by omega)
      subst hc
      rfl
    | m + 1 =>
      rw [splitFramesFuel, splitFramesFuel]
      match hf : findSub crlf content with
      | none => rfl
      | some i =>
        have hlen : (content.drop (i + 2)).length ≤ k ∧ (content.drop (i + 2)).length ≤ m := by
          simp only [List.length_drop]
          omega
        show (content.take i :: (splitFramesFuel k (content.drop (i + 2))).1,
            (splitFramesFuel k (content.drop (i + 2))).2) =
          (content.take i :: (splitFramesFuel m (content.drop (i + 2))).1,
            (splitFramesFuel m (content.drop (i + 2))).2)
        rw [ih m (content.drop (i + 2)) hlen.1 hlen.2]

theorem splitFrames_none {content : List Nat} (hf : findSub crlf content = none) :
    splitFrames content = ([], content) :=
  splitFramesFuel_none _ hf

theorem splitFrames_some {content : List Nat} {i : Nat} (hf : findSub crlf content = some i) :
    splitFrames content =
      (content.take i :: (splitFrames (content.drop (i + 2))).1,
        (splitFrames (content.drop (i + 2))).2) := by
  rw [splitFrames]
  match hl : content.length with
  | 0 =>
    have hc : content = [] := List.eq_nil_of_length_eq_zero hl
    subst hc
    cases hf
  | k + 1 =>
    rw [splitFramesFuel, hf, splitFrames]
    have hle : (content.drop (i + 2)).length ≤ k := by
      simp only [List.length_drop]
      omega
    show (content.take i :: (splitFramesFuel k (content.drop (i + 2))).1,
        (splitFramesFuel k (content.drop (i + 2))).2) =
      (content.take i :: (splitFramesFuel (content.drop (i + 2)).length (content.drop (i + 2))).1,
        (splitFramesFuel (content.drop (i + 2)).length (content.drop (i + 2))).2)
    rw [splitFramesFuel_adequate k (content.drop (i + 2)).length _ hle (le_refl _)]

/-- C10: the framing layer splits the content at exactly the two-byte
`\r\n` sequences: the content is the completed frames, each
re-terminated with `\r\n`, followed by the still-buffered leftover;
neither a frame nor the leftover contains `\r\n` (in particular a bare
`\n` not preceded by `\r` never ends a frame — it stays inside its
line); only the completed frames are handed to `parse_line`, the
leftover is only buffered. -/
theorem file_log_events_framing (content : List Nat) :
    ((splitFrames content).1.map (· ++ crlf)).flatten ++ (splitFrames content).2 = content ∧
    (∀ f ∈ (splitFrames content).1, findSub crlf f = none) ∧
    findSub crlf (splitFrames content).2 = none ∧
    fileLogEvents content =
      (splitFrames content).1.filterMap fun b =>
        if isValidUtf8 b then parseLine b else none := by
  suffices H : ∀ n (c : List Nat), c.length ≤ n →
      ((splitFrames c).1.map (· ++ crlf)).flatten ++ (splitFrames c).2 = c ∧
      (∀ f ∈ (splitFrames c).1, findSub crlf f = none) ∧
      findSub crlf (splitFrames c).2 = none by
    exact ⟨(H content.length content (le_refl _)).1, (H content.length content (le_refl _)).2.1,
      (H content.length content (le_refl _)).2.2, rfl⟩
  intro n
  induction n with
  | zero =>
    intro c hc
    have hcnil : c = [] := List.eq_nil_of_length_eq_zero (by omega)
    subst hcnil
    have h0 : findSub crlf [] = none := by decide
    exact ⟨by simp [splitFrames_none h0], by simp [splitFrames_none h0],
      by rw [splitFrames_none h0]; exact h0⟩
  | succ n ihn =>
    intro c hc
    match hf : findSub crlf c with
    | none =>
      rw [splitFrames_none hf]
      exact ⟨by simp, by simp, hf⟩
    | some i =>
      have hdrop : (c.drop (i + 2)).length ≤ n := by
        simp only [List.length_drop]
        omega
      obtain ⟨ih1, ih2, ih3⟩ := ihn (c.drop (i + 2)) hdrop
      rw [splitFrames_some hf]
      refine ⟨?_, ?_, ih3⟩
      · simp only [List.map_cons, List.flatten_cons, List.append_assoc]
        rw [ih1]
        have hd := findSub_decompose hf
        conv_rhs => rw [hd]
        simp [crlf]
      · intro f hfm
        rcases List.mem_cons.mp hfm with rfl | hfm
        · exact findSub_take_none (by simp [crlf]) hf
        · exact ih2 f hfm

/-- Witness part for C10 (the second conjunct carries a membership
hypothesis): in a concrete buffer the first frame contains a bare `\n`
but no `\r\n`. -/
theorem file_log_events_framing_witness : findSub crlf [97, 10, 98] = none := by
  have hf : findSub crlf [97, 10, 98, 13, 10, 99] = some 3 := by decide
  have hmem : [97, 10, 98] ∈ (splitFrames [97, 10, 98, 13, 10, 99]).1 := by
    rw [splitFrames_some hf]
    exact List.mem_cons_self _ _
  exact (file_log_events_framing [97, 10, 98, 13, 10, 99]).2.1 [97, 10, 98] hmem

/-! ## Facts about hex digits and `decodeHexAux` -/

theorem hexVal_lt {c d : Nat} (h : hexVal c = some d) : d < 16 := by
  unfold hexVal at h
  split_ifs at h with h1 h2 h3 <;> cases h <;> omega

theorem hexVal_hexChar {m : Nat} (h : m < 16) : hexVal (hexChar m) = some m := by
  interval_cases m <;> rfl

theorem hexChar_range {m : Nat} (h : m < 16) :
    (48 ≤ hexChar m ∧ hexChar m ≤ 57) ∨ (97 ≤ hexChar m ∧ hexChar m ≤ 102) := by
  unfold hexChar
  split_ifs <;> omega

theorem hexDigitsBE_length (n k : Nat) : (hexDigitsBE n k).length = k := by
  induction k generalizing n with
  | zero => rfl
  | succ k ih =>
    rw [hexDigitsBE]
    simp [ih]

theorem mem_hexDigitsBE {c n k : Nat} (h : c ∈ hexDigitsBE n k) :
    (48 ≤ c ∧ c ≤ 57) ∨ (97 ≤ c ∧ c ≤ 102) := by
  induction k generalizing n with
  | zero => cases h
  | succ k ih =>
    rw [hexDigitsBE] at h
    rcases List.mem_append.mp h with h2 | h2
    · exact ih h2
    · rcases List.mem_singleton.mp h2 with rfl
      exact hexChar_range (Nat.mod_lt _ (by omega))

theorem decodeHexAux_append (xs ys : List Nat) (acc : Nat) :
    decodeHexAux (xs ++ ys) acc = (decodeHexAux xs acc).bind fun a => decodeHexAux ys a := by
  induction xs generalizing acc with
  | nil => rfl
  | cons c r ih =>
    rw [List.cons_append, decodeHexAux, decodeHexAux]
    match hexVal c with
    | some v =>
      simp only [Option.some_bind]
      exact ih (acc * 16 + v)
    | none => rfl

theorem decodeHexAux_hexDigitsBE {n : Nat} (k : Nat) (acc : Nat) (h : n < 16 ^ k) :
    decodeHexAux (hexDigitsBE n k) acc = some (acc * 16 ^ k + n) := by
  induction k generalizing n acc with
  | zero =>
    have : n = 0 := by simpa using h
    subst this
    simp [hexDigitsBE, decodeHexAux]
  | succ k ih =>
    rw [hexDigitsBE, decodeHexAux_append]
    have hdiv : n / 16 < 16 ^ k := by
      apply Nat.div_lt_of_lt_mul
      rw [mul_comm, ← pow_succ]
      exact h
    rw [ih acc hdiv]
    simp only [Option.some_bind]
    rw [decodeHexAux, hexVal_hexChar (Nat.mod_lt _ (by omega))]
    simp only [Option.some_bind, decodeHexAux]
    congr 1
    have := Nat.div_add_mod n 16
    rw [pow_succ]
    ring_nf
    omega

theorem decodeHexAux_lt {s : List Nat} {acc v : Nat} (h : decodeHexAux s acc = some v) :
    v < (acc + 1) * 16 ^ s.length := by
  induction s generalizing acc with
  | nil =>
    cases h
    simp
  | cons c r ih =>
    rw [decodeHexAux] at h
    match hv : hexVal c with
    | none => rw [hv] at h; cases h
    | some d =>
      rw [hv] at h
      simp only [Option.some_bind] at h
      have hd := hexVal_lt hv
      have hr := ih h
      have hle : acc * 16 + d + 1 ≤ (acc + 1) * 16 := by omega
      calc v < (acc * 16 + d + 1) * 16 ^ r.length := hr
      _ ≤ (acc + 1) * 16 * 16 ^ r.length := Nat.mul_le_mul_right _ hle
      _ = (acc + 1) * 16 ^ (r.length + 1) := by ring
      _ = (acc + 1) * 16 ^ (c :: r).length := by rw [List.length_cons]

/-! ## Facts about the byte-level splitters -/

theorem splitOnByte_ne_nil (sep : Nat) (l : List Nat) : splitOnByte sep l ≠ [] := by
  match l with
  | [] => simp [splitOnByte]
  | c :: cs =>
    simp only [splitOnByte]
    by_cases hc : c = sep <;> simp [hc]

theorem splitOnByte_no_sep {sep : Nat} {l : List Nat} (h : sep ∉ l) :
    splitOnByte sep l = [l] := by
  induction l with
  | nil => rfl
  | cons c cs ih =>
    have hcs : sep ∉ cs := fun hx => h (List.mem_cons_of_mem c hx)
    have hc : c ≠ sep := fun hx => h (hx ▸ List.mem_cons_self c cs)
    simp only [splitOnByte, ih hcs]
    simp [hc]

theorem splitOnByte_append_sep {sep : Nat} {a : List Nat} (rest : List Nat) (h : sep ∉ a) :
    splitOnByte sep (a ++ sep :: rest) = a :: splitOnByte sep rest := by
  induction a with
  | nil => simp [splitOnByte]
  | cons c cs ih =>
    have hcs : sep ∉ cs := fun hx => h (List.mem_cons_of_mem c hx)
    have hc : c ≠ sep := fun hx => h (hx ▸ List.mem_cons_self c cs)
    simp only [List.cons_append, splitOnByte, List.append_eq]
    rw [ih hcs]
    simp [hc]

theorem splitOnByte_pieces_no_sep {sep : Nat} {l : List Nat} :
    ∀ p ∈ splitOnByte sep l, sep ∉ p := by
  induction l with
  | nil =>
    intro p hp
    rw [splitOnByte] at hp
    rcases List.mem_singleton.mp hp with rfl
    simp
  | cons c cs ih =>
    intro p hp
    match hr : splitOnByte sep cs with
    | [] => exact absurd hr (splitOnByte_ne_nil sep cs)
    | h2 :: t =>
      simp only [splitOnByte, hr, List.headD_cons, List.tail_cons] at hp
      by_cases hc : c = sep
      · rw [if_pos hc] at hp
        rcases List.mem_cons.mp hp with rfl | hp
        · simp
        · exact ih p (hr ▸ hp)
      · rw [if_neg hc] at hp
        rcases List.mem_cons.mp hp with rfl | hp
        · intro hmem
          rcases List.mem_cons.mp hmem with rfl | hmem
          · exact hc rfl
          · exact ih h2 (hr ▸ List.mem_cons_self h2 t) hmem
        · exact ih p (hr ▸ List.mem_cons_of_mem h2 hp)

theorem splitOnceByte_eq_some {sep : Nat} {l a b : List Nat}
    (h : splitOnceByte sep l = some (a, b)) : l = a ++ sep :: b ∧ sep ∉ a := by
  induction l generalizing a with
  | nil => cases h
  | cons c cs ih =>
    rw [splitOnceByte] at h
    by_cases hc : c = sep
    · rw [if_pos hc] at h
      cases h
      subst hc
      exact ⟨rfl, by simp⟩
    · rw [if_neg hc] at h
      match hr : splitOnceByte sep cs with
      | none => rw [hr] at h; cases h
      | some (a2, b2) =>
        rw [hr] at h
        cases h
        obtain ⟨heq, hmem⟩ := ih hr
        refine ⟨by rw [List.cons_append, ← heq], ?_⟩
        intro hx
        rcases List.mem_cons.mp hx with rfl | hx
        · exact hc rfl
        · exact hmem hx

theorem splitOnceByte_append {sep : Nat} {a : List Nat} (b : List Nat) (h : sep ∉ a) :
    splitOnceByte sep (a ++ sep :: b) = some (a, b) := by
  induction a with
  | nil =>
    rw [List.nil_append, splitOnceByte]
    simp
  | cons c cs ih =>
    have hcs : sep ∉ cs := fun hx => h (List.mem_cons_of_mem c hx)
    have hc : c ≠ sep := fun hx => h (hx ▸ List.mem_cons_self c cs)
    rw [List.cons_append, splitOnceByte, if_neg hc, ih hcs]
    rfl

theorem stripSuffixByte_concat (sep : Nat) (v : List Nat) :
    stripSuffixByte sep (v ++ [sep]) = some v := by
  rw [stripSuffixByte]
  rw [List.getLast?_concat]
  simp

theorem stripSuffixByte_eq_some {sep : Nat} {l v : List Nat}
    (h : stripSuffixByte sep l = some v) : l = v ++ [sep] := by
  rw [stripSuffixByte] at h
  split_ifs at h with hd
  cases h
  have hne : l ≠ [] := by
    intro hnil
    rw [hnil] at hd
    cases hd
  have hfull := List.dropLast_append_getLast hne
  rw [List.getLast?_eq_getLast l hne] at hd
  cases Option.some.inj hd
  exact hfull.symm

theorem stripPrefixB_append (p r : List Nat) : stripPrefixB p (p ++ r) = some r := by
  rw [stripPrefixB, List.take_left, if_pos rfl, List.drop_left]

/-! ## Decimal digits of `Display` for `u32` -/

theorem decValue_append_digit (xs : List Nat) (c : Nat) :
    decValue (xs ++ [c]) = decValue xs * 10 + (c - 48) := by
  simp [decValue, List.foldl_append]

theorem decDigitsBEFuel_spec : ∀ fuel n, n < 10 ^ fuel → 1 ≤ fuel →
    decValue (decDigitsBEFuel fuel n) = n ∧
    decDigitsBEFuel fuel n ≠ [] ∧
    ∀ c ∈ decDigitsBEFuel fuel n, 48 ≤ c ∧ c ≤ 57 := by
  intro fuel
  induction fuel with
  | zero =>
    intro n h h1
    omega
  | succ fuel ih =>
    intro n h _
    rw [decDigitsBEFuel]
    by_cases hn : n < 10
    · rw [if_pos hn]
      refine ⟨?_, by simp, ?_⟩
      · simp only [decValue, List.foldl_cons, List.foldl_nil]
        omega
      · intro c hc
        rcases List.mem_singleton.mp hc with rfl
        omega
    · rw [if_neg hn]
      have hd : n / 10 < 10 ^ fuel := by
        apply Nat.div_lt_of_lt_mul
        rw [mul_comm, ← pow_succ]
        exact h
      have hf : 1 ≤ fuel := by
        by_contra hf0
        push_neg at hf0
        interval_cases fuel
        simp at hd
        omega
      obtain ⟨hv, hne, hdig⟩ := ih (n / 10) hd hf
      refine ⟨?_, by simp, ?_⟩
      · rw [decValue_append_digit, hv]
        omega
      · intro c hc
        rcases List.mem_append.mp hc with hc | hc
        · exact hdig c hc
        · rcases List.mem_singleton.mp hc with rfl
          have := Nat.mod_lt n (y := 10) (by omega)
          omega

theorem decDigitsBE_digits {n : Nat} : ∀ c ∈ decDigitsBE n, 48 ≤ c ∧ c ≤ 57 := by
  have hlt : n < 10 ^ (n + 1) :=
    lt_of_lt_of_le (Nat.lt_two_pow n)
      (le_trans (Nat.pow_le_pow_left (by omega) n) (Nat.pow_le_pow_right (by omega) (by omega)))
  exact (decDigitsBEFuel_spec (n + 1) n hlt (by omega)).2.2

theorem parseU32_decDigitsBE {n : Nat} (h : n < 2 ^ 32) :
    parseU32 (decDigitsBE n) = some n := by
  have hlt : n < 10 ^ (n + 1) :=
    lt_of_lt_of_le (Nat.lt_two_pow n)
      (le_trans (Nat.pow_le_pow_left (by omega) n) (Nat.pow_le_pow_right (by omega) (by omega)))
  obtain ⟨hv, hne, hdig⟩ := decDigitsBEFuel_spec (n + 1) n hlt (by omega)
  rw [decDigitsBE]
  match hd : decDigitsBEFuel (n + 1) n with
  | [] => exact absurd hd hne
  | c :: rest =>
    rw [hd] at hv hdig
    have hc : 48 ≤ c ∧ c ≤ 57 := hdig c (List.mem_cons_self c rest)
    rw [parseU32]
    have hns : ¬ (c = 43 ∨ c = 45) := by omega
    rw [if_neg hns]
    have hall : (c :: rest).all isDigitB = true := by
      rw [List.all_eq_true]
      intro x hx
      have := hdig x hx
      simp only [isDigitB, Bool.decide_and, Bool.and_eq_true, decide_eq_true_eq]
      omega
    rw [if_neg (not_not.mpr hall), if_pos (by rw [hv]; exact h), hv]

theorem parseU32_lt {s : List Nat} {v : Nat} (h : parseU32 s = some v) : v < 2 ^ 32 := by
  match s with
  | [] => cases h
  | c :: rest =>
    rw [parseU32] at h
    split_ifs at h <;> cases h <;> first | assumption | positivity

/-! ## Facts about `collectOption` -/

theorem collectOption_mem {α β : Type} {f : α → Option β} {l : List α} {ys : List β}
    (h : collectOption f l = some ys) : ∀ y ∈ ys, ∃ x ∈ l, f x = some y := by
  induction l generalizing ys with
  | nil =>
    cases h
    simp
  | cons x xs ih =>
    rw [collectOption] at h
    match hf : f x, hr : collectOption f xs with
    | some y0, some ys0 =>
      rw [hf, hr] at h
      cases h
      intro y hy
      rcases List.mem_cons.mp hy with rfl | hy
      · exact ⟨x, List.mem_cons_self x xs, hf⟩
      · obtain ⟨x2, hx2, hfx2⟩ := ih hr y hy
        exact ⟨x2, List.mem_cons_of_mem x hx2, hfx2⟩
    | some y0, none =>
      rw [hf, hr] at h
      cases h
    | none, _ =>
      rw [hf] at h
      cases h

theorem collectOption_map {α β : Type} (f : α → Option β) (g : β → α) {l : List β}
    (h : ∀ y ∈ l, f (g y) = some y) : collectOption f (l.map g) = some l := by
  induction l with
  | nil => rfl
  | cons y ys ih =>
    rw [List.map_cons, collectOption, h y (List.mem_cons_self y ys),
      ih fun z hz => h z (List.mem_cons_of_mem y hz)]

/-! ## UUID display/parse round trip -/

theorem hexDigitsBE_no45 (n k : Nat) : (45 : Nat) ∉ hexDigitsBE n k := by
  intro hm
  rcases mem_hexDigitsBE hm with h1 | h1 <;> omega

theorem displayUuid_length (w : Nat) : (displayUuid w).length = 36 := by
  simp [displayUuid, hexDigitsBE_length]

theorem mem_displayUuid {c w : Nat} (h : c ∈ displayUuid w) :
    (48 ≤ c ∧ c ≤ 57) ∨ (97 ≤ c ∧ c ≤ 102) ∨ c = 45 := by
  have hx : ∀ n k, c ∈ hexDigitsBE n k →
      (48 ≤ c ∧ c ≤ 57) ∨ (97 ≤ c ∧ c ≤ 102) ∨ c = 45 :=
    fun n k hm => (mem_hexDigitsBE hm).imp id Or.inl
  unfold displayUuid at h
  rcases List.mem_append.mp h with h | h
  · exact hx _ _ h
  rcases List.mem_cons.mp h with rfl | h
  · exact Or.inr (Or.inr rfl)
  rcases List.mem_append.mp h with h | h
  · exact hx _ _ h
  rcases List.mem_cons.mp h with rfl | h
  · exact Or.inr (Or.inr rfl)
  rcases List.mem_append.mp h with h | h
  · exact hx _ _ h
  rcases List.mem_cons.mp h with rfl | h
  · exact Or.inr (Or.inr rfl)
  rcases List.mem_append.mp h with h | h
  · exact hx _ _ h
  rcases List.mem_cons.mp h with rfl | h
  · exact Or.inr (Or.inr rfl)
  exact hx _ _ h

theorem splitOnByte_displayUuid (w : Nat) :
    splitOnByte 45 (displayUuid w) =
      [hexDigitsBE (w / 16 ^ 24) 8, hexDigitsBE (w / 16 ^ 20 % 16 ^ 4) 4,
       hexDigitsBE (w / 16 ^ 16 % 16 ^ 4) 4, hexDigitsBE (w / 16 ^ 12 % 16 ^ 4) 4,
       hexDigitsBE (w % 16 ^ 12) 12] := by
  unfold displayUuid
  rw [splitOnByte_append_sep _ (hexDigitsBE_no45 _ _),
    splitOnByte_append_sep _ (hexDigitsBE_no45 _ _),
    splitOnByte_append_sep _ (hexDigitsBE_no45 _ _),
    splitOnByte_append_sep _ (hexDigitsBE_no45 _ _),
    splitOnByte_no_sep (hexDigitsBE_no45 _ _)]

theorem parseHyphenated_displayUuid {w : Nat} (h : w < 16 ^ 32) :
    parseHyphenated (displayUuid w) = some w := by
  rw [parseHyphenated]
  simp only [splitOnByte_displayUuid]
  rw [if_pos (by simp [hexDigitsBE_length])]
  simp only [List.flatten, List.append_nil]
  have hm4 : ∀ x : Nat, x % 16 ^ 4 < 16 ^ 4 := fun x => Nat.mod_lt _ (by positivity)
  have hm12 : ∀ x : Nat, x % 16 ^ 12 < 16 ^ 12 := fun x => Nat.mod_lt _ (by positivity)
  have hd24 : w / 16 ^ 24 < 16 ^ 8 := by
    apply Nat.div_lt_of_lt_mul
    rw [← pow_add]
    exact h
  have hstep : ∀ k, w / 16 ^ (k + 4) * 16 ^ 4 + w / 16 ^ k % 16 ^ 4 = w / 16 ^ k := by
    intro k
    have h1 : w / 16 ^ (k + 4) = w / 16 ^ k / 16 ^ 4 := by
      rw [Nat.div_div_eq_div_mul, ← pow_add]
    rw [h1, mul_comm]
    exact Nat.div_add_mod _ _
  rw [decodeHexAux_append, decodeHexAux_hexDigitsBE 8 0 hd24, Option.some_bind]
  rw [decodeHexAux_append, decodeHexAux_hexDigitsBE 4 _ (hm4 _), Option.some_bind]
  rw [decodeHexAux_append, decodeHexAux_hexDigitsBE 4 _ (hm4 _), Option.some_bind]
  rw [decodeHexAux_append, decodeHexAux_hexDigitsBE 4 _ (hm4 _), Option.some_bind]
  rw [decodeHexAux_hexDigitsBE 12 _ (hm12 _)]
  rw [Nat.zero_mul, Nat.zero_add]
  rw [hstep 20, hstep 16, hstep 12]
  congr 1
  rw [mul_comm]
  exact Nat.div_add_mod _ _

theorem parseUuid_displayUuid {w : Nat} (h : w < 16 ^ 32) :
    parseUuid (displayUuid w) = some w := by
  rw [parseUuid, displayUuid_length]
  rw [if_neg (by norm_num), if_pos rfl]
  exact parseHyphenated_displayUuid h

/-! ## Instance and room display/parse round trip -/

theorem splitOnByte_first_append {sep : Nat} (pieces : List (List Nat)) :
    ∀ first, sep ∉ first → (∀ p ∈ pieces, sep ∉ p) →
    splitOnByte sep (first ++ (pieces.map (sep :: ·)).flatten) = first :: pieces := by
  induction pieces with
  | nil =>
    intro first h1 _
    simp only [List.map_nil, List.flatten_nil, List.append_nil]
    exact splitOnByte_no_sep h1
  | cons p ps ih =>
    intro first h1 h2
    rw [List.map_cons, List.flatten_cons, List.cons_append, splitOnByte_append_sep _ h1]
    rw [ih p (h2 p (List.mem_cons_self p ps)) fun q hq => h2 q (List.mem_cons_of_mem p hq)]

theorem parseAttribute_display (p : List Nat × List Nat) (h40 : (40 : Nat) ∉ p.1) :
    parseAttribute (p.1 ++ 40 :: (p.2 ++ [41])) = some p := by
  rw [parseAttribute, splitOnceByte_append _ h40, Option.some_bind, stripSuffixByte_concat,
    Option.map_some']

theorem parseInstanceId_display (inst : InstanceId) (hid : inst.id < 2 ^ 32)
    (hk : ∀ p ∈ inst.attributes,
      (126 : Nat) ∉ p.1 ∧ (40 : Nat) ∉ p.1 ∧ (126 : Nat) ∉ p.2) :
    parseInstanceId (displayInstanceId inst) = some inst := by
  have hdec126 : (126 : Nat) ∉ decDigitsBE inst.id := by
    intro hm
    have := decDigitsBE_digits _ hm
    omega
  have hpieces : ∀ q ∈ inst.attributes.map fun p => p.1 ++ 40 :: (p.2 ++ [41]),
      (126 : Nat) ∉ q := by
    intro q hq
    obtain ⟨p, hp, rfl⟩ := List.mem_map.mp hq
    obtain ⟨hk1, _, hk2⟩ := hk p hp
    intro hm
    rcases List.mem_append.mp hm with hm | hm
    · exact hk1 hm
    rcases List.mem_cons.mp hm with heq | hm
    · omega
    rcases List.mem_append.mp hm with hm | hm
    · exact hk2 hm
    · rcases List.mem_singleton.mp hm with heq
      omega
  have hsplit : splitOnByte 126 (displayInstanceId inst) =
      decDigitsBE inst.id :: inst.attributes.map fun p => p.1 ++ 40 :: (p.2 ++ [41]) := by
    have hmm : (inst.attributes.map fun p => (126 : Nat) :: (p.1 ++ 40 :: (p.2 ++ [41]))) =
        (inst.attributes.map fun p => p.1 ++ 40 :: (p.2 ++ [41])).map ((126 : Nat) :: ·) := by
      rw [List.map_map]
      rfl
    rw [displayInstanceId, hmm]
    exact splitOnByte_first_append _ _ hdec126 hpieces
  rw [parseInstanceId]
  simp only [hsplit, List.headD_cons, List.tail_cons]
  rw [parseU32_decDigitsBE hid, Option.some_bind]
  rw [collectOption_map parseAttribute _ fun q hq => parseAttribute_display q (hk q hq).2.1,
    Option.map_some']

theorem mem_displayWorldId {c w : Nat} (h : c ∈ displayWorldId w) : c ≠ 58 := by
  rw [displayWorldId] at h
  rcases List.mem_append.mp h with h | h
  · have heq : ascii "wrld_" = [119, 114, 108, 100, 95] := rfl
    rw [heq] at h
    simp only [List.mem_cons, List.not_mem_nil, or_false] at h
    rcases h with rfl | rfl | rfl | rfl | rfl <;> decide
  · rcases mem_displayUuid h with h1 | h1 | h1 <;> omega

theorem parseRoomId_display (v : RoomId) (hw : v.world < 16 ^ 32) (hid : v.inst.id < 2 ^ 32)
    (hk : ∀ p ∈ v.inst.attributes,
      (126 : Nat) ∉ p.1 ∧ (40 : Nat) ∉ p.1 ∧ (126 : Nat) ∉ p.2) :
    parseRoomId (displayRoomId v) = some v := by
  have h58 : (58 : Nat) ∉ displayWorldId v.world := fun hm => mem_displayWorldId hm rfl
  rw [parseRoomId, displayRoomId, splitOnceByte_append _ h58, Option.some_bind]
  rw [parseWorldId, displayWorldId, stripPrefixB_append, Option.some_bind,
    parseUuid_displayUuid hw, Option.some_bind]
  rw [parseInstanceId_display v.inst hid hk, Option.map_some']

/-! ## Constraints implied by a successful parse -/

theorem list_length_five {α : Type} {l : List α} (h : l.length = 5) :
    ∃ a b c d e, l = [a, b, c, d, e] := by
  match l with
  | [a, b, c, d, e] => exact ⟨a, b, c, d, e, rfl⟩
  | [] => simp at h
  | [_] => simp at h
  | [_, _] => simp at h
  | [_, _, _] => simp at h
  | [_, _, _, _] => simp at h
  | _ :: _ :: _ :: _ :: _ :: _ :: t =>
    simp only [List.length_cons] at h
    omega

theorem parseHyphenated_lt {s : List Nat} {w : Nat} (h : parseHyphenated s = some w) :
    w < 16 ^ 32 := by
  rw [parseHyphenated] at h
  split_ifs at h with hc
  obtain ⟨h5, h8, h41, h42, h43, h12⟩ := hc
  obtain ⟨a, b, c, d, e, hg⟩ := list_length_five h5
  rw [hg] at h h8 h41 h42 h43 h12
  simp only [List.getD_cons_zero, List.getD_cons_succ] at h8 h41 h42 h43 h12
  simp only [List.flatten_cons, List.flatten_nil, List.append_nil] at h
  have hb := decodeHexAux_lt h
  have hlen : (a ++ (b ++ (c ++ (d ++ e)))).length = 32 := by
    simp [List.length_append, h8, h41, h42, h43, h12]
  rw [hlen] at hb
  simpa using hb

theorem parseUuid_lt {s : List Nat} {w : Nat} (h : parseUuid s = some w) : w < 16 ^ 32 := by
  rw [parseUuid] at h
  split_ifs at h with h32 h36 h38 hbr h45
  · have hb := decodeHexAux_lt h
    rw [h32] at hb
    simpa using hb
  · exact parseHyphenated_lt h
  · rcases Option.bind_eq_some.mp h with ⟨inner, _, h2⟩
    exact parseHyphenated_lt h2
  · rcases Option.bind_eq_some.mp h with ⟨rest, _, h2⟩
    exact parseHyphenated_lt h2

theorem parseWorldId_lt {s : List Nat} {w : Nat} (h : parseWorldId s = some w) :
    w < 16 ^ 32 := by
  rw [parseWorldId] at h
  rcases Option.bind_eq_some.mp h with ⟨r, _, h2⟩
  exact parseUuid_lt h2

theorem parseInstanceId_inv {s : List Nat} {inst : InstanceId}
    (h : parseInstanceId s = some inst) :
    inst.id < 2 ^ 32 ∧
    ∀ p ∈ inst.attributes, (126 : Nat) ∉ p.1 ∧ (40 : Nat) ∉ p.1 ∧ (126 : Nat) ∉ p.2 := by
  rw [parseInstanceId] at h
  rcases Option.bind_eq_some.mp h with ⟨i, hi, h2⟩
  rcases Option.map_eq_some'.mp h2 with ⟨attrs, hattrs, heq⟩
  cases heq
  refine ⟨parseU32_lt hi, ?_⟩
  intro p hp
  obtain ⟨a, ha, hpa⟩ := collectOption_mem hattrs p hp
  have h126a : (126 : Nat) ∉ a :=
    splitOnByte_pieces_no_sep a (List.mem_of_mem_tail ha)
  rw [parseAttribute] at hpa
  rcases Option.bind_eq_some.mp hpa with ⟨kr, hkr, h3⟩
  rcases Option.map_eq_some'.mp h3 with ⟨v2, hv2, heq2⟩
  cases heq2
  obtain ⟨haeq, h40k⟩ := splitOnceByte_eq_some hkr
  have hv2sub := stripSuffixByte_eq_some hv2
  refine ⟨?_, h40k, ?_⟩
  · intro hm
    exact h126a (haeq ▸ List.mem_append.mpr (Or.inl hm))
  · intro hm
    apply h126a
    rw [haeq]
    exact List.mem_append.mpr
      (Or.inr (List.mem_cons_of_mem _ (hv2sub ▸ List.mem_append.mpr (Or.inl hm))))

theorem parseRoomId_inv {s : List Nat} {v : RoomId} (h : parseRoomId s = some v) :
    v.world < 16 ^ 32 ∧ v.inst.id < 2 ^ 32 ∧
    ∀ p ∈ v.inst.attributes, (126 : Nat) ∉ p.1 ∧ (40 : Nat) ∉ p.1 ∧ (126 : Nat) ∉ p.2 := by
  rw [parseRoomId] at h
  rcases Option.bind_eq_some.mp h with ⟨wi, _, h2⟩
  rcases Option.bind_eq_some.mp h2 with ⟨wv, hwv, h3⟩
  rcases Option.map_eq_some'.mp h3 with ⟨iv, hiv, heq⟩
  cases heq
  obtain ⟨hid, hk⟩ := parseInstanceId_inv hiv
  exact ⟨parseWorldId_lt hwv, hid, hk⟩

set_option maxRecDepth 20000 in
/-- Counterexample to C9 as stated: the string with zero-padded
instance id `046115` parses successfully, but rendering the parsed
value back produces `46115` — not the original text. -/
theorem room_id_roundtrip_cex :
    (parseRoomId (ascii "wrld_900dd077-1337-c0fe-babe-71de05ea12c4:046115")).map
        displayRoomId =
      some (ascii "wrld_900dd077-1337-c0fe-babe-71de05ea12c4:46115") ∧
    ascii "wrld_900dd077-1337-c0fe-babe-71de05ea12c4:46115" ≠
      ascii "wrld_900dd077-1337-c0fe-babe-71de05ea12c4:046115" := by
  decide

/-- C9 (amended): the parser accepts non-canonical spellings (a signed
or zero-padded instance id, uppercase or unhyphenated UUIDs) which
`Display` normalizes, so rendering need not reproduce the input text;
what holds is the semantic round trip: for every string that parses to
a `RoomId` value, rendering that value and parsing it again yields
exactly the same value, with the attribute pairs in their original
order. -/
theorem room_id_parse_display (s : List Nat) (v : RoomId) (h : parseRoomId s = some v) :
    parseRoomId (displayRoomId v) = some v := by
  obtain ⟨hw, hid, hk⟩ := parseRoomId_inv h
  exact parseRoomId_display v hw hid hk

set_option maxRecDepth 20000 in
/-- Witness for C9 (amended): the round trip at the sample room. -/
theorem room_id_parse_display_witness :
    parseRoomId (displayRoomId ⟨0x900dd0771337c0febabe71de05ea12c4,
        ⟨46115, [(ascii "hidden", ascii "usr_38116327-5a34-4fd8-ace0-21c93fb3f163")]⟩⟩) =
      some ⟨0x900dd0771337c0febabe71de05ea12c4,
        ⟨46115, [(ascii "hidden", ascii "usr_38116327-5a34-4fd8-ace0-21c93fb3f163")]⟩⟩ :=
  room_id_parse_display
    (ascii "wrld_900dd077-1337-c0fe-babe-71de05ea12c4:46115~hidden(usr_38116327-5a34-4fd8-ace0-21c93fb3f163)")
    _ (by decide)

end WhereAmI
